import Mathlib

/-!
Shallow embedding of the myano front end (src/token.rs, src/report.rs,
src/parse.rs, src/bind.rs).

Source text is modelled as `List Char`; the scanner's `start`/`current`
counters are `Nat`s counting characters, exactly as the Rust code increments
them once per `char` (they are `usize` in Rust; no statement below exercises
a usize overflow).  Rust's `&str[a..b]` indexing, which works on UTF-8 bytes
and panics off a character boundary, is modelled by `strSlice` (`none` for
the panic); the scanner's identifier branch performs exactly such a slice at
its character-counted offsets (token.rs:201), so the scan itself can panic —
and does, whenever identifier text contains a character that is not a single
UTF-8 byte.  The `as u32` casts the scanner applies when storing a token
span (token.rs:232) are modelled exactly by `asU32`, truncation mod 2^32.

Rust panics (`unwrap`/`expect` failures and the byte-slice panic above) are
modelled as an explicit `PRes.abort` result.  The parser's mutual recursion
is driven by an explicit fuel parameter; `PRes.nofuel` is the out-of-fuel
artifact, distinct from both normal returns and panics, so every concrete
evaluation below shows which of the three actually happens.
-/

namespace Myano

/-- Report (src/report.rs). -/
structure Report where
  fault : Bool
  errors : List String
  warnings : List String
deriving DecidableEq, Repr

def Report.new : Report := ⟨false, [], []⟩

/-- Report::error — push the message and set the fault flag. -/
def Report.error (r : Report) (msg : String) : Report :=
  { r with errors := r.errors ++ [msg], fault := true }

/-- Report::warn — push a warning; the fault flag is untouched. -/
def Report.warn (r : Report) (msg : String) : Report :=
  { r with warnings := r.warnings ++ [msg] }

/-- Report::ok. -/
def Report.ok (r : Report) : Bool := !r.fault

/-- TT (src/token.rs): the token kinds. -/
inductive TT where
  | Eof
  | True
  | False
  | Identifier
  | Integer
  | Float
  | Plus
  | Minus
  | Star
  | Slash
  | Bang
  | Equal
  | EqualEqual
  | BangEqual
  | Lesser
  | Greater
  | LesserEqual
  | GreaterEqual
  | LParen
  | RParen
  | LBracket
  | RBracket
  | LBrace
  | RBrace
  | Dot
  | Comma
  | Colon
  | SemiColon
  | Let
  | Mut
  | If
  | Else
  | For
  | While
  | Loop
  | Export
  | Struct
  | Module
  | Fn
  | EqualGreater
deriving DecidableEq, Repr

/-- Token (src/token.rs): a kind plus a (start, end) span, in the units the
scanner counts (one per `char`). -/
structure Token where
  kind : TT
  src : Nat × Nat
deriving DecidableEq, Repr

/-- TokenStream (src/token.rs): the source plus its tokens. -/
structure TokenStream where
  src : List Char
  tokens : List Token
deriving DecidableEq, Repr

/-- UTF-8 encoding of one character (the bytes Rust stores for it in a str). -/
def utf8Bytes (c : Char) : List Nat :=
  let n := c.toNat
  if n < 0x80 then [n]
  else if n < 0x800 then [0xC0 + n / 0x40, 0x80 + n % 0x40]
  else if n < 0x10000 then
    [0xE0 + n / 0x1000, 0x80 + n / 0x40 % 0x40, 0x80 + n % 0x40]
  else
    [0xF0 + n / 0x40000, 0x80 + n / 0x1000 % 0x40, 0x80 + n / 0x40 % 0x40,
      0x80 + n % 0x40]

/-- Whether byte index i is a character boundary of the UTF-8 form of s
(Rust str::is_char_boundary; the end of the string counts as a boundary). -/
def isCharBoundary : List Char → Nat → Bool
  | _, 0 => true
  | [], _ + 1 => false
  | c :: t, i + 1 =>
    let sz := (utf8Bytes c).length
    if i + 1 < sz then false else isCharBoundary t (i + 1 - sz)

/-- Characters of s whose UTF-8 bytes lie in the byte range [a, b); the
content of a valid Rust byte-range slice of s. -/
def strSliceChars : List Char → Nat → Nat → List Char
  | [], _, _ => []
  | c :: t, a, b =>
    let sz := (utf8Bytes c).length
    if b = 0 then []
    else if sz ≤ a then strSliceChars t (a - sz) (b - sz)
    else c :: strSliceChars t 0 (b - sz)

/-- Rust `&s[a..b]`: defined when a ≤ b and both ends are character
boundaries, otherwise a panic (`none`). -/
def strSlice (s : List Char) (a b : Nat) : Option (List Char) :=
  if a ≤ b ∧ isCharBoundary s a = true ∧ isCharBoundary s b = true then
    some (strSliceChars s a b)
  else none

/-- TokenStream::str_from — slice the source at the token's span (byte
indexing, as Rust's `&self.src[a..b]` does). -/
def TokenStream.str_from (ts : TokenStream) (t : Token) : Option (List Char) :=
  strSlice ts.src t.src.1 t.src.2

/-- Rust char::is_whitespace, the Unicode White_Space property (a fixed,
complete list of code points). -/
def rustIsWhitespace (c : Char) : Bool :=
  decide (c.toNat ∈ [0x09, 0x0A, 0x0B, 0x0C, 0x0D, 0x20, 0x85, 0xA0, 0x1680,
    0x2000, 0x2001, 0x2002, 0x2003, 0x2004, 0x2005, 0x2006, 0x2007,
    0x2008, 0x2009, 0x200A, 0x2028, 0x2029, 0x202F, 0x205F, 0x3000])

/-- Rust char::is_numeric, the Unicode General_Category N test.  Below
U+0100 that set is exactly the ASCII digits plus the six Latin-1
superscripts and vulgar fractions listed here, and this model agrees with
Rust on every such code point; above U+0100 Rust's set continues (digits of
other scripts) while this model classifies no character as numeric.  Every
theorem below either states its classification hypotheses with this
predicate or holds regardless of which branch a character is routed to. -/
def rustIsNumeric (c : Char) : Bool :=
  decide ((48 ≤ c.toNat ∧ c.toNat ≤ 57) ∨
    c.toNat ∈ [0xB2, 0xB3, 0xB9, 0xBC, 0xBD, 0xBE])

/-- Rust char::is_alphabetic, the Unicode Alphabetic property.  Below
U+0100 that set is exactly the ASCII letters plus the Latin-1 letters
listed here (ª, µ, º and the accented ranges À–Ö, Ø–ö, ø–ÿ), and this
model agrees with Rust on every such code point; above U+0100 Rust's set
continues (other alphabets) while this model classifies no character as
alphabetic.  Every theorem below either states its classification
hypotheses with this predicate or holds regardless of which branch a
character is routed to. -/
def rustIsAlphabetic (c : Char) : Bool :=
  decide ((65 ≤ c.toNat ∧ c.toNat ≤ 90) ∨ (97 ≤ c.toNat ∧ c.toNat ≤ 122) ∨
    c.toNat ∈ [0xAA, 0xB5, 0xBA] ∨ (0xC0 ≤ c.toNat ∧ c.toNat ≤ 0xD6) ∨
    (0xD8 ≤ c.toNat ∧ c.toNat ≤ 0xF6) ∨ (0xF8 ≤ c.toNat ∧ c.toNat ≤ 0xFF))

/-- Rust char::is_alphanumeric = alphabetic or numeric. -/
def rustIsAlphanumeric (c : Char) : Bool := rustIsAlphabetic c || rustIsNumeric c

/-- Equality of Except results is decidable when both components are. -/
instance {e a : Type} [DecidableEq e] [DecidableEq a] : DecidableEq (Except e a) := fun x y =>
  match x, y with
  | .ok u, .ok v => decidable_of_iff (u = v) (by simp)
  | .error u, .error v => decidable_of_iff (u = v) (by simp)
  | .ok _, .error _ => isFalse (by simp)
  | .error _, .ok _ => isFalse (by simp)

/-- Result of running the scanner or a parser production: a normal return,
a Rust panic (an `unwrap`/`expect` failure, or the scanner's byte-slice
panic), or fuel exhaustion (a modelling artifact only; never a behaviour
of the program). -/
inductive PRes (α : Type) where
  | ok (a : α)
  | abort
  | nofuel
deriving DecidableEq, Repr

/-- Tokenize (src/token.rs): the scanner state.  The Rust struct also holds
`src` and the char iterator; here `src` is passed alongside and the iterator
is the explicit remainder list, kept in step with `current`. -/
structure Tokenize where
  tokens : List Token
  report : Report
  start : Nat
  current : Nat
deriving DecidableEq, Repr

def Tokenize.new : Tokenize := ⟨[], Report.new, 0, 0⟩

/-- Rust's `as u32` cast on a usize: truncation to 32 bits. -/
def asU32 (n : Nat) : Nat := n % 4294967296

/-- Tokenize::add — push a token spanning start..current; the span ends are
stored through `as u32` casts (token.rs:232), which wrap at 2^32. -/
def Tokenize.add (st : Tokenize) (kind : TT) : Tokenize :=
  { st with tokens := st.tokens ++ [Token.mk kind (asU32 st.start, asU32 st.current)] }

/-- Tokenize::eof — push the end-of-input sentinel, whose span is (0, 0). -/
def Tokenize.eof (st : Tokenize) : Tokenize :=
  { st with tokens := st.tokens ++ [Token.mk TT.Eof (0, 0)] }

/-- Keyword table of the identifier branch of Tokenize::build. -/
def keywordKind (check : List Char) : TT :=
  if check = "true".toList then TT.True
  else if check = "false".toList then TT.False
  else if check = "if".toList then TT.If
  else if check = "else".toList then TT.Else
  else if check = "let".toList then TT.Let
  else if check = "mut".toList then TT.Mut
  else if check = "fn".toList then TT.Fn
  else TT.Identifier

/-- The state update at the top of every loop iteration of Tokenize::build:
`self.start = self.current; self.current += 1;`. -/
def stepState (st : Tokenize) : Tokenize :=
  { st with start := st.current, current := st.current + 1 }

/-- One iteration of the `while let Some(c) = iter.next()` loop of
Tokenize::build, for head character c: returns the remaining iterator
contents and the updated scanner state, or `PRes.abort` for the one panic
the loop body can raise — the identifier branch's keyword check
`&self.src[self.start..self.current]` (token.rs:201) slices the source by
byte at the scanner's character-counted offsets and panics when either end
misses a character boundary.  The `current` counter of each branch accounts
for the extra characters that branch's lookahead consumed (one per
`advance` call in the Rust loop bodies). -/
def tokStep (src : List Char) (c : Char) (rest : List Char) (st : Tokenize) :
    PRes (List Char × Tokenize) :=
  if c = '+' then .ok (rest, (stepState st).add TT.Plus)
  else if c = '-' then .ok (rest, (stepState st).add TT.Minus)
  else if c = '*' then .ok (rest, (stepState st).add TT.Star)
  else if c = '/' then .ok (rest, (stepState st).add TT.Slash)
  else if c = '=' then
    match rest with
    | '=' :: r2 =>
      .ok (r2, ({ stepState st with current := st.current + 1 + 1 }).add TT.EqualEqual)
    | '>' :: r2 =>
      .ok (r2, ({ stepState st with current := st.current + 1 + 1 }).add TT.EqualGreater)
    | r0 => .ok (r0, (stepState st).add TT.Equal)
  else if c = '(' then .ok (rest, (stepState st).add TT.LParen)
  else if c = ')' then .ok (rest, (stepState st).add TT.RParen)
  else if c = '[' then .ok (rest, (stepState st).add TT.LBracket)
  else if c = ']' then .ok (rest, (stepState st).add TT.RBracket)
  else if c = '{' then .ok (rest, (stepState st).add TT.LBrace)
  else if c = '}' then .ok (rest, (stepState st).add TT.RBrace)
  else if c = '.' then .ok (rest, (stepState st).add TT.Dot)
  else if c = ',' then .ok (rest, (stepState st).add TT.Comma)
  else if c = ':' then .ok (rest, (stepState st).add TT.Colon)
  else if c = ';' then .ok (rest, (stepState st).add TT.SemiColon)
  else if rustIsWhitespace c then .ok (rest, stepState st)
  else if rustIsNumeric c then
    if (rest.dropWhile rustIsNumeric).head? = some '.' then
      .ok (((rest.dropWhile rustIsNumeric).tail).dropWhile rustIsNumeric,
        ({ stepState st with
            current := st.current + 1 + (rest.takeWhile rustIsNumeric).length + 1 +
              (((rest.dropWhile rustIsNumeric).tail).takeWhile rustIsNumeric).length }).add
          TT.Float)
    else
      .ok (rest.dropWhile rustIsNumeric,
        ({ stepState st with
            current := st.current + 1 + (rest.takeWhile rustIsNumeric).length }).add
          TT.Integer)
  else if rustIsAlphabetic c then
    match strSlice src st.current
        (st.current + 1 + (rest.takeWhile rustIsAlphanumeric).length) with
    | none => .abort
    | some check =>
      .ok (rest.dropWhile rustIsAlphanumeric,
        ({ stepState st with
            current := st.current + 1 + (rest.takeWhile rustIsAlphanumeric).length }).add
          (keywordKind check))
  else
    .ok (rest,
      { stepState st with report :=
          (st.report.error
            ("unknown character '" ++ String.mk [c] ++ "' at " ++ toString st.current)) })

/-- Main scan loop of Tokenize::build, one `tokStep` per iteration; a panic
in a step aborts the whole loop.  `fuel` only drives the recursion: every
iteration consumes at least one character, so `fuel = rem.length` always
reaches the real end of the loop (the `tokLoop_fuel` lemma proves the
result is the same under any sufficient fuel), and the fuel-exhaustion
fallback (return the state unchanged, exactly like an empty remainder) is
unreachable from `tokRun`. -/
def tokLoop (src : List Char) (fuel : Nat) (rem : List Char) (st : Tokenize) :
    PRes Tokenize :=
  match fuel with
  | 0 => .ok st
  | fuel + 1 =>
    match rem with
    | [] => .ok st
    | c :: rest =>
      match tokStep src c rest st with
      | .ok (rem2, st2) => tokLoop src fuel rem2 st2
      | .abort => .abort
      | .nofuel => .nofuel
termination_by structural fuel

/-- The whole scanner pass: the loop over all of src, then the Eof push
(the state Tokenize::build inspects before deciding success); a panic in
the loop aborts the pass. -/
def tokRun (src : List Char) : PRes Tokenize :=
  match tokLoop src src.length src Tokenize.new with
  | .ok st => .ok st.eof
  | .abort => .abort
  | .nofuel => .nofuel

/-- tokenize (src/token.rs): Ok(TokenStream) iff the report recorded no
error, Err(report) otherwise; `PRes.abort` when the scan panics first. -/
def tokenize (src : List Char) : PRes (Except Report TokenStream) :=
  match tokRun src with
  | .ok st =>
    if st.report.ok then .ok (Except.ok ⟨src, st.tokens⟩)
    else .ok (Except.error st.report)
  | .abort => .abort
  | .nofuel => .nofuel

/-- Node (src/parse.rs): the syntax-node sum type.  `&'a Token` references
are modelled as `Token` values, `NodeIndex(u32)` handles as `Nat`.  The
`annotation` field of Rust's `Let` is named `ann` here. -/
inductive Node where
  | error
  | module (root : Nat)
  | block (expr : List Nat)
  | identifier (name : Token)
  | bool (value : Bool)
  | integer (value : Token)
  | float (value : Token)
  | fn (args : List (Token × Option Nat)) (ret : Option Nat) (expr : Nat)
  | group (expr : Nat)
  | binary (left : Nat) (op : Token) (right : Nat)
  | unary (op : Token) (right : Nat)
  | call (op : Token) (expr : Nat) (args : List Nat)
  | ifE (op : Token) (condition : Nat) (then_branch : Nat) (else_branch : Option Nat)
  | letE (mutable : Bool) (name : Token) (expr : Nat) (ann : Option Nat)
deriving DecidableEq, Repr

/-- All node handles stored inside a node. -/
def Node.refs : Node → List Nat
  | .error => []
  | .module root => [root]
  | .block expr => expr
  | .identifier _ => []
  | .bool _ => []
  | .integer _ => []
  | .float _ => []
  | .fn args ret expr => (args.filterMap (fun p => p.2)) ++ ret.toList ++ [expr]
  | .group expr => [expr]
  | .binary left _ right => [left, right]
  | .unary _ right => [right]
  | .call _ expr args => expr :: args
  | .ifE _ condition then_branch else_branch =>
    condition :: then_branch :: else_branch.toList
  | .letE _ _ expr ann => expr :: ann.toList

/-- Ast (src/parse.rs): token stream reference, node arena, root handle. -/
structure Ast where
  tokens : List Token
  nodes : List Node
  root : Nat
deriving DecidableEq, Repr

/-- Parser state (src/parse.rs): the iterator position into the token list,
the node arena, and the diagnostic report. -/
structure PSt where
  pos : Nat
  nodes : List Node
  report : Report
deriving DecidableEq, Repr

def PSt.new : PSt := ⟨0, [], Report.new⟩

/-- Parser::add — push a node, return its handle (push then len - 1). -/
def padd (st : PSt) (v : Node) : Nat × PSt :=
  (st.nodes.length, { st with nodes := st.nodes ++ [v] })

/-- Parser::catch — peek (None when the iterator is exhausted, via `?`);
consume and return the token when its kind is listed. -/
def pcatch (tk : List Token) (check : List TT) (st : PSt) : Option Token × PSt :=
  match tk.get? st.pos with
  | none => (none, st)
  | some t =>
    if check.contains t.kind then (some t, { st with pos := st.pos + 1 })
    else (none, st)

/-- Variant name as Rust's `{:?}` Debug formatting prints it. -/
def ttName : TT → String
  | .Eof => "Eof"
  | .True => "True"
  | .False => "False"
  | .Identifier => "Identifier"
  | .Integer => "Integer"
  | .Float => "Float"
  | .Plus => "Plus"
  | .Minus => "Minus"
  | .Star => "Star"
  | .Slash => "Slash"
  | .Bang => "Bang"
  | .Equal => "Equal"
  | .EqualEqual => "EqualEqual"
  | .BangEqual => "BangEqual"
  | .Lesser => "Lesser"
  | .Greater => "Greater"
  | .LesserEqual => "LesserEqual"
  | .GreaterEqual => "GreaterEqual"
  | .LParen => "LParen"
  | .RParen => "RParen"
  | .LBracket => "LBracket"
  | .RBracket => "RBracket"
  | .LBrace => "LBrace"
  | .RBrace => "RBrace"
  | .Dot => "Dot"
  | .Comma => "Comma"
  | .Colon => "Colon"
  | .SemiColon => "SemiColon"
  | .Let => "Let"
  | .Mut => "Mut"
  | .If => "If"
  | .Else => "Else"
  | .For => "For"
  | .While => "While"
  | .Loop => "Loop"
  | .Export => "Export"
  | .Struct => "Struct"
  | .Module => "Module"
  | .Fn => "Fn"
  | .EqualGreater => "EqualGreater"

/-- Token Display/Debug formatting: `({:?} : {}..{})`. -/
def tokenDisp (t : Token) : String :=
  "(" ++ ttName t.kind ++ " : " ++ toString t.src.1 ++ ".." ++ toString t.src.2 ++ ")"

mutual

/-- Parser::module — a block terminated only by end of input, wrapped in a
Module node. -/
def moduleP (tk : List Token) (fuel : Nat) (st : PSt) :
    PRes (Nat × PSt) :=
  match fuel with
  | 0 => .nofuel
  | fuel + 1 =>
    match blockP tk (fun _ => false) fuel st with
    | .ok (root, st) => .ok (padd st (.module root))
    | .abort => .abort
    | .nofuel => .nofuel

/-- Parser::block — collect statements until Eof or the end predicate, then
wrap them in a Block node. -/
def blockP (tk : List Token) (endP : TT → Bool) (fuel : Nat) (st : PSt) :
    PRes (Nat × PSt) :=
  match fuel with
  | 0 => .nofuel
  | fuel + 1 =>
    match blockLoop tk endP [] fuel st with
    | .ok (expr, st) => .ok (padd st (.block expr))
    | .abort => .abort
    | .nofuel => .nofuel
termination_by structural fuel

/-- The `while let Some(c) = self.iter.peek()` loop of Parser::block: break
on exhaustion or Eof; consume the terminator and break when endP matches;
otherwise one statement and an optional semicolon. -/
def blockLoop (tk : List Token) (endP : TT → Bool) (acc : List Nat) (fuel : Nat) (st : PSt) :
    PRes (List Nat × PSt) :=
  match fuel with
  | 0 => .nofuel
  | fuel + 1 =>
    match tk.get? st.pos with
    | none => .ok (acc, st)
    | some c =>
      if c.kind = TT.Eof then .ok (acc, st)
      else if endP c.kind then .ok (acc, { st with pos := st.pos + 1 })
      else
        match statementP tk fuel st with
        | .ok (i, st) =>
          let r := pcatch tk [TT.SemiColon] st
          blockLoop tk endP (acc ++ [i]) fuel r.2
        | .abort => .abort
        | .nofuel => .nofuel
termination_by structural fuel

/-- Parser::statement — optional let/mut, name (unwrap), optional `:` type,
mandatory `=` (unwrap), initializer; otherwise a bare expression. -/
def statementP (tk : List Token) (fuel : Nat) (st : PSt) :
    PRes (Nat × PSt) :=
  match fuel with
  | 0 => .nofuel
  | fuel + 1 =>
    match pcatch tk [TT.Let, TT.Mut] st with
    | (some op, st) =>
      match pcatch tk [TT.Identifier] st with
      | (none, _) => .abort
      | (some name, st) =>
        let finish := fun (ann : Option Nat) (st : PSt) =>
          match pcatch tk [TT.Equal] st with
          | (none, _) => PRes.abort
          | (some _, st) =>
            match expressionP tk fuel st with
            | .ok (expr, st) =>
              .ok (padd st (.letE (op.kind = TT.Mut) name expr ann))
            | .abort => .abort
            | .nofuel => .nofuel
        match pcatch tk [TT.Colon] st with
        | (some _, st) =>
          match typeExpressionP tk fuel st with
          | .ok (ann, st) => finish (some ann) st
          | .abort => .abort
          | .nofuel => .nofuel
        | (none, st) => finish none st
    | (none, st) => expressionP tk fuel st
termination_by structural fuel

/-- Parser::expression — the top of the precedence ladder. -/
def expressionP (tk : List Token) (fuel : Nat) (st : PSt) :
    PRes (Nat × PSt) :=
  match fuel with
  | 0 => .nofuel
  | fuel + 1 => functionP tk fuel st
termination_by structural fuel

/-- Parser::function — `fn`, `(` (unwrap), parameter list, optional `:`
return type, `=>` (diagnostic when missing — the Rust code records an error
and falls through), body. -/
def functionP (tk : List Token) (fuel : Nat) (st : PSt) :
    PRes (Nat × PSt) :=
  match fuel with
  | 0 => .nofuel
  | fuel + 1 =>
    match pcatch tk [TT.Fn] st with
    | (some _, st) =>
      match pcatch tk [TT.LParen] st with
      | (none, _) => .abort
      | (some _, st) =>
        match fnArgsLoop tk [] fuel st with
        | .ok (args, st) =>
          let body := fun (ret : Option Nat) (st : PSt) =>
            match expressionP tk fuel st with
            | .ok (expr, st) => PRes.ok (padd st (.fn args ret expr))
            | .abort => PRes.abort
            | .nofuel => PRes.nofuel
          let arrow := fun (ret : Option Nat) (st : PSt) =>
            match pcatch tk [TT.EqualGreater] st with
            | (some _, st) => body ret st
            | (none, st) =>
              match tk.get? st.pos with
              | none => PRes.abort
              | some t =>
                body ret
                  { st with report :=
                      (st.report.error ("expected '=>', found " ++ tokenDisp t)) }
          match pcatch tk [TT.Colon] st with
          | (some _, st) =>
            match typeExpressionP tk fuel st with
            | .ok (ret, st) => arrow (some ret) st
            | .abort => .abort
            | .nofuel => .nofuel
          | (none, st) => arrow none st
        | .abort => .abort
        | .nofuel => .nofuel
    | (none, st) => jumpP tk fuel st
termination_by structural fuel

/-- The parameter-list loop of Parser::function: until `)` is caught, a
name (expect — also formats `self.peek()` eagerly, a second panic site),
an optional `:` type, and an optional comma. -/
def fnArgsLoop (tk : List Token) (acc : List (Token × Option Nat)) (fuel : Nat) (st : PSt) :
    PRes (List (Token × Option Nat) × PSt) :=
  match fuel with
  | 0 => .nofuel
  | fuel + 1 =>
    match pcatch tk [TT.RParen] st with
    | (some _, st) => .ok (acc, st)
    | (none, st) =>
      match pcatch tk [TT.Identifier] st with
      | (none, _) => .abort
      | (some name, st) =>
        match tk.get? st.pos with
        | none => .abort
        | some _ =>
          match pcatch tk [TT.Colon] st with
          | (some _, st) =>
            match typeExpressionP tk fuel st with
            | .ok (ann, st) =>
              let r := pcatch tk [TT.Comma] st
              fnArgsLoop tk (acc ++ [(name, some ann)]) fuel r.2
            | .abort => .abort
            | .nofuel => .nofuel
          | (none, st) =>
            let r := pcatch tk [TT.Comma] st
            fnArgsLoop tk (acc ++ [(name, none)]) fuel r.2
termination_by structural fuel

/-- Parser::jump — `if` condition (equality tier) then-branch, optional
`else`; otherwise fall through to equality. -/
def jumpP (tk : List Token) (fuel : Nat) (st : PSt) :
    PRes (Nat × PSt) :=
  match fuel with
  | 0 => .nofuel
  | fuel + 1 =>
    match pcatch tk [TT.If] st with
    | (some op, st) =>
      match equalityP tk fuel st with
      | .ok (condition, st) =>
        match expressionP tk fuel st with
        | .ok (then_branch, st) =>
          match pcatch tk [TT.Else] st with
          | (some _, st) =>
            match expressionP tk fuel st with
            | .ok (else_branch, st) =>
              .ok (padd st (.ifE op condition then_branch (some else_branch)))
            | .abort => .abort
            | .nofuel => .nofuel
          | (none, st) =>
            .ok (padd st (.ifE op condition then_branch none))
        | .abort => .abort
        | .nofuel => .nofuel
      | .abort => .abort
      | .nofuel => .nofuel
    | (none, st) => equalityP tk fuel st
termination_by structural fuel

/-- Parser::equality — left-associative ==, !=, <, <=, >, >= tier. -/
def equalityP (tk : List Token) (fuel : Nat) (st : PSt) :
    PRes (Nat × PSt) :=
  match fuel with
  | 0 => .nofuel
  | fuel + 1 =>
    match termP tk fuel st with
    | .ok (left, st) => eqLoop tk left fuel st
    | .abort => .abort
    | .nofuel => .nofuel
termination_by structural fuel

/-- The while loop of Parser::equality. -/
def eqLoop (tk : List Token) (left : Nat) (fuel : Nat) (st : PSt) :
    PRes (Nat × PSt) :=
  match fuel with
  | 0 => .nofuel
  | fuel + 1 =>
    match pcatch tk
        [TT.EqualEqual, TT.BangEqual, TT.Lesser, TT.LesserEqual,
          TT.Greater, TT.GreaterEqual] st with
    | (none, st) => .ok (left, st)
    | (some op, st) =>
      match termP tk fuel st with
      | .ok (right, st) =>
        let r := padd st (.binary left op right)
        eqLoop tk r.1 fuel r.2
      | .abort => .abort
      | .nofuel => .nofuel
termination_by structural fuel

/-- Parser::term — left-associative +, - tier. -/
def termP (tk : List Token) (fuel : Nat) (st : PSt) :
    PRes (Nat × PSt) :=
  match fuel with
  | 0 => .nofuel
  | fuel + 1 =>
    match factorP tk fuel st with
    | .ok (left, st) => termLoop tk left fuel st
    | .abort => .abort
    | .nofuel => .nofuel
termination_by structural fuel

/-- The while loop of Parser::term. -/
def termLoop (tk : List Token) (left : Nat) (fuel : Nat) (st : PSt) :
    PRes (Nat × PSt) :=
  match fuel with
  | 0 => .nofuel
  | fuel + 1 =>
    match pcatch tk [TT.Plus, TT.Minus] st with
    | (none, st) => .ok (left, st)
    | (some op, st) =>
      match factorP tk fuel st with
      | .ok (right, st) =>
        let r := padd st (.binary left op right)
        termLoop tk r.1 fuel r.2
      | .abort => .abort
      | .nofuel => .nofuel
termination_by structural fuel

/-- Parser::factor — left-associative *, / tier. -/
def factorP (tk : List Token) (fuel : Nat) (st : PSt) :
    PRes (Nat × PSt) :=
  match fuel with
  | 0 => .nofuel
  | fuel + 1 =>
    match unaryP tk fuel st with
    | .ok (left, st) => factorLoop tk left fuel st
    | .abort => .abort
    | .nofuel => .nofuel
termination_by structural fuel

/-- The while loop of Parser::factor. -/
def factorLoop (tk : List Token) (left : Nat) (fuel : Nat) (st : PSt) :
    PRes (Nat × PSt) :=
  match fuel with
  | 0 => .nofuel
  | fuel + 1 =>
    match pcatch tk [TT.Star, TT.Slash] st with
    | (none, st) => .ok (left, st)
    | (some op, st) =>
      match unaryP tk fuel st with
      | .ok (right, st) =>
        let r := padd st (.binary left op right)
        factorLoop tk r.1 fuel r.2
      | .abort => .abort
      | .nofuel => .nofuel
termination_by structural fuel

/-- Parser::unary — prefix -, ! chains. -/
def unaryP (tk : List Token) (fuel : Nat) (st : PSt) :
    PRes (Nat × PSt) :=
  match fuel with
  | 0 => .nofuel
  | fuel + 1 =>
    match pcatch tk [TT.Minus, TT.Bang] st with
    | (some op, st) =>
      match unaryP tk fuel st with
      | .ok (right, st) => .ok (padd st (.unary op right))
      | .abort => .abort
      | .nofuel => .nofuel
    | (none, st) => callP tk fuel st
termination_by structural fuel

/-- Parser::call — a primary followed by call applications. -/
def callP (tk : List Token) (fuel : Nat) (st : PSt) :
    PRes (Nat × PSt) :=
  match fuel with
  | 0 => .nofuel
  | fuel + 1 =>
    match primaryP tk fuel st with
    | .ok (expr, st) => callLoop tk expr fuel st
    | .abort => .abort
    | .nofuel => .nofuel
termination_by structural fuel

/-- The outer application loop of Parser::call: on `(`, peek (unwrap) to
decide between an empty and a nonempty argument list, then `)` (unwrap). -/
def callLoop (tk : List Token) (expr : Nat) (fuel : Nat) (st : PSt) :
    PRes (Nat × PSt) :=
  match fuel with
  | 0 => .nofuel
  | fuel + 1 =>
    match pcatch tk [TT.LParen] st with
    | (none, st) => .ok (expr, st)
    | (some _, st) =>
      let close := fun (args : List Nat) (st : PSt) =>
        match pcatch tk [TT.RParen] st with
        | (none, _) => PRes.abort
        | (some op, st) =>
          let r := padd st (.call op expr args)
          callLoop tk r.1 fuel r.2
      match tk.get? st.pos with
      | none => .abort
      | some t =>
        if t.kind = TT.RParen then close [] st
        else
          match callArgsLoop tk [] fuel st with
          | .ok (args, st) => close args st
          | .abort => .abort
          | .nofuel => .nofuel
termination_by structural fuel

/-- The argument loop of Parser::call: expressions separated by commas. -/
def callArgsLoop (tk : List Token) (acc : List Nat) (fuel : Nat) (st : PSt) :
    PRes (List Nat × PSt) :=
  match fuel with
  | 0 => .nofuel
  | fuel + 1 =>
    match expressionP tk fuel st with
    | .ok (a, st) =>
      match pcatch tk [TT.Comma] st with
      | (none, st) => .ok (acc ++ [a], st)
      | (some _, st) => callArgsLoop tk (acc ++ [a]) fuel st
    | .abort => .abort
    | .nofuel => .nofuel
termination_by structural fuel

/-- Parser::primary — peek (unwrap), then literals, identifiers, groups
(an unmatched `(` silently becomes an Error node), brace blocks, and the
diagnostic-plus-Error-node fallback that consumes the offending token. -/
def primaryP (tk : List Token) (fuel : Nat) (st : PSt) :
    PRes (Nat × PSt) :=
  match fuel with
  | 0 => .nofuel
  | fuel + 1 =>
    match tk.get? st.pos with
    | none => .abort
    | some t =>
      match t.kind with
      | .Identifier => .ok (padd { st with pos := st.pos + 1 } (.identifier t))
      | .True => .ok (padd { st with pos := st.pos + 1 } (.bool true))
      | .False => .ok (padd { st with pos := st.pos + 1 } (.bool false))
      | .Integer => .ok (padd { st with pos := st.pos + 1 } (.integer t))
      | .Float => .ok (padd { st with pos := st.pos + 1 } (.float t))
      | .LParen =>
        match expressionP tk fuel { st with pos := st.pos + 1 } with
        | .ok (expr, st) =>
          match pcatch tk [TT.RParen] st with
          | (some _, st) => .ok (padd st (.group expr))
          | (none, st) => .ok (padd st .error)
        | .abort => .abort
        | .nofuel => .nofuel
      | .LBrace =>
        blockP tk (fun kind => kind = TT.RBrace) fuel { st with pos := st.pos + 1 }
      | kind =>
        let st :=
          { st with report := (st.report.error ("unexpected token: " ++ ttName kind)) }
        .ok (padd { st with pos := st.pos + 1 } .error)
termination_by structural fuel

/-- Parser::type_expression. -/
def typeExpressionP (tk : List Token) (fuel : Nat) (st : PSt) :
    PRes (Nat × PSt) :=
  match fuel with
  | 0 => .nofuel
  | fuel + 1 => typePrimaryP tk fuel st

/-- Parser::type_primary — an identifier, or a diagnostic plus Error node. -/
def typePrimaryP (tk : List Token) (fuel : Nat) (st : PSt) :
    PRes (Nat × PSt) :=
  match fuel with
  | 0 => .nofuel
  | _ + 1 =>
    match tk.get? st.pos with
    | none => .abort
    | some t =>
      match t.kind with
      | .Identifier => .ok (padd { st with pos := st.pos + 1 } (.identifier t))
      | kind =>
        let st :=
          { st with report := (st.report.error ("unexpected token: " ++ ttName kind)) }
        .ok (padd { st with pos := st.pos + 1 } .error)

end

/-- parse (src/parse.rs): Parser::build — run module, then Ok(Ast) iff the
report recorded no error, else Err(report).  `fuel` bounds the recursion
depth of the model only. -/
def parse (fuel : Nat) (ts : TokenStream) : PRes (Except Report Ast) :=
  match moduleP ts.tokens fuel PSt.new with
  | .ok (root, st) =>
    if st.report.ok then .ok (Except.ok ⟨ts.tokens, st.nodes, root⟩)
    else .ok (Except.error st.report)
  | .abort => .abort
  | .nofuel => .nofuel

/-- The claim C9 well-formedness predicate: every handle stored inside the
node at arena position i points strictly below i. -/
def NodesWF (ns : List Node) : Prop :=
  ∀ i n, ns.get? i = some n → ∀ j ∈ n.refs, j < i

/-- Postcondition of a parser production: on a normal return the arena only
grew, the returned handle is in range, and well-formedness is preserved. -/
def GoodN (st : PSt) : PRes (Nat × PSt) → Prop
  | .ok (i, st2) =>
    st.nodes.length ≤ st2.nodes.length ∧ i < st2.nodes.length ∧
      (NodesWF st.nodes → NodesWF st2.nodes)
  | .abort => True
  | .nofuel => True

/-- Postcondition of a handle-list-returning loop. -/
def GoodL (st : PSt) : PRes (List Nat × PSt) → Prop
  | .ok (is, st2) =>
    st.nodes.length ≤ st2.nodes.length ∧ (∀ i ∈ is, i < st2.nodes.length) ∧
      (NodesWF st.nodes → NodesWF st2.nodes)
  | .abort => True
  | .nofuel => True

/-- Postcondition of the parameter-list loop. -/
def GoodA (st : PSt) : PRes (List (Token × Option Nat) × PSt) → Prop
  | .ok (args, st2) =>
    st.nodes.length ≤ st2.nodes.length ∧
      (∀ p ∈ args, ∀ j : Nat, p.2 = some j → j < st2.nodes.length) ∧
      (NodesWF st.nodes → NodesWF st2.nodes)
  | .abort => True
  | .nofuel => True

/-- Type (src/bind.rs): named Ty here (`Type` is reserved in Lean); the
`TypeIndex(u32)` handles are `Nat`. -/
inductive Ty where
  | var (n : Nat)
  | int
  | bool
  | fn (dom : Nat) (cod : Nat)
deriving DecidableEq, Repr

/-- Bindings (src/bind.rs): type-term pool, type-variable counter, and the
scope stack of name-to-optional-type-handle mappings (Rust HashMap modelled
as an association list; its internals play no role below). -/
structure Bindings where
  pool : List Ty
  count : Nat
  map : List (List (String × Option Nat))
deriving DecidableEq, Repr

def Bindings.new : Bindings := ⟨[], 0, [[]]⟩

/-- Bindings::scope_begin — push a clone of the innermost (last) mapping;
the Rust `.last().cloned().unwrap()` panics (`none`) on an empty stack. -/
def Bindings.scope_begin (b : Bindings) : Option Bindings :=
  match b.map.getLast? with
  | none => none
  | some m => some { b with map := b.map ++ [m] }

/-- Bindings::scope_end — pop the innermost mapping (Vec::pop; a no-op on
an empty stack). -/
def Bindings.scope_end (b : Bindings) : Bindings :=
  { b with map := b.map.dropLast }

/-! ## Helper lemmas -/

theorem tokLoop_nil (src : List Char) (fuel : Nat) (st : Tokenize) :
    tokLoop src fuel [] st = PRes.ok st := by
  cases fuel <;> rfl

theorem takeWhile_all {p : Char → Bool} :
    ∀ {l : List Char}, (∀ a ∈ l, p a = true) →
      l.takeWhile p = l ∧ l.dropWhile p = [] := by
  intro l h
  induction l with
  | nil => simp
  | cons a t ih =>
    have ha : p a = true := h a (by simp)
    have ht := ih (fun b hb => h b (by simp [hb]))
    simp [List.takeWhile_cons, List.dropWhile_cons, ha, ht.1, ht.2]

theorem takeWhile_append_stop {p : Char → Bool} (x : Char) (l2 : List Char)
    (hx : p x = false) :
    ∀ l1 : List Char, (∀ a ∈ l1, p a = true) →
      (l1 ++ x :: l2).takeWhile p = l1 ∧ (l1 ++ x :: l2).dropWhile p = x :: l2 := by
  intro l1 h
  induction l1 with
  | nil => simp [List.takeWhile_cons, List.dropWhile_cons, hx]
  | cons a t ih =>
    have ha : p a = true := h a (by simp)
    have ht := ih (fun b hb => h b (by simp [hb]))
    simp [List.takeWhile_cons, List.dropWhile_cons, ha, ht.1, ht.2]

theorem mem_dropWhile_of_neg {p : Char → Bool} {a : Char} (ha : p a = false) :
    ∀ {l : List Char}, a ∈ l → a ∈ l.dropWhile p := by
  intro l h
  induction l with
  | nil => cases h
  | cons b t ih =>
    rw [List.dropWhile_cons]
    by_cases hb : p b = true
    · simp only [hb, if_true]
      rcases List.mem_cons.mp h with rfl | h2
      · rw [ha] at hb; cases hb
      · exact ih h2
    · simp only [Bool.not_eq_true] at hb
      simp [hb]
      exact List.mem_cons.mp h

theorem ws_not_symbol {c : Char} (h : rustIsWhitespace c = true) :
    ¬(c = '+') ∧ ¬(c = '-') ∧ ¬(c = '*') ∧ ¬(c = '/') ∧ ¬(c = '=') ∧ ¬(c = '(') ∧
    ¬(c = ')') ∧ ¬(c = '[') ∧ ¬(c = ']') ∧ ¬(c = '{') ∧ ¬(c = '}') ∧ ¬(c = '.') ∧
    ¬(c = ',') ∧ ¬(c = ':') ∧ ¬(c = ';') := by
  have hm := of_decide_eq_true h
  refine ⟨?_, ?_, ?_, ?_, ?_, ?_, ?_, ?_, ?_, ?_, ?_, ?_, ?_, ?_, ?_⟩ <;>
    · intro he
      subst he
      revert hm
      decide

/-- Exhaustive description of one scanner step: which branch of the Rust
match fired, with the exact resulting iterator remainder and state — or the
identifier branch's byte-slice panic. -/
theorem tokStep_cases (src : List Char) (c : Char) (rest : List Char) (st : Tokenize) :
    (∃ k, k ∈ ([TT.Plus, TT.Minus, TT.Star, TT.Slash, TT.LParen, TT.RParen,
        TT.LBracket, TT.RBracket, TT.LBrace, TT.RBrace, TT.Dot, TT.Comma,
        TT.Colon, TT.SemiColon, TT.Equal] : List TT) ∧
      tokStep src c rest st = PRes.ok (rest, (stepState st).add k)) ∨
    (∃ x r2 k, rest = x :: r2 ∧ (x = '=' ∨ x = '>') ∧
      (k = TT.EqualEqual ∨ k = TT.EqualGreater) ∧
      tokStep src c rest st =
        PRes.ok (r2, ({ stepState st with current := st.current + 1 + 1 }).add k)) ∨
    (rustIsWhitespace c = true ∧
      tokStep src c rest st = PRes.ok (rest, stepState st)) ∨
    ((rest.dropWhile rustIsNumeric).head? = some '.' ∧
      tokStep src c rest st =
        PRes.ok (((rest.dropWhile rustIsNumeric).tail).dropWhile rustIsNumeric,
          ({ stepState st with
              current := st.current + 1 + (rest.takeWhile rustIsNumeric).length + 1 +
                (((rest.dropWhile rustIsNumeric).tail).takeWhile rustIsNumeric).length }).add
            TT.Float)) ∨
    (tokStep src c rest st =
      PRes.ok (rest.dropWhile rustIsNumeric,
        ({ stepState st with
            current := st.current + 1 + (rest.takeWhile rustIsNumeric).length }).add
          TT.Integer)) ∨
    (∃ ch, tokStep src c rest st =
      PRes.ok (rest.dropWhile rustIsAlphanumeric,
        ({ stepState st with
            current := st.current + 1 + (rest.takeWhile rustIsAlphanumeric).length }).add
          (keywordKind ch))) ∨
    (tokStep src c rest st = PRes.abort) ∨
    (tokStep src c rest st =
      PRes.ok (rest,
        { stepState st with report :=
            (st.report.error
              ("unknown character '" ++ String.mk [c] ++ "' at " ++
                toString st.current)) })) := by
  by_cases h1 : c = '+'
  · exact Or.inl ⟨TT.Plus, by decide, by simp [tokStep, h1]⟩
  by_cases h2 : c = '-'
  · exact Or.inl ⟨TT.Minus, by decide, by simp [tokStep, h1, h2]⟩
  by_cases h3 : c = '*'
  · exact Or.inl ⟨TT.Star, by decide, by simp [tokStep, h1, h2, h3]⟩
  by_cases h4 : c = '/'
  · exact Or.inl ⟨TT.Slash, by decide, by simp [tokStep, h1, h2, h3, h4]⟩
  by_cases h5 : c = '='
  · cases rest with
    | nil =>
      exact Or.inl ⟨TT.Equal, by decide, by simp [tokStep, h1, h2, h3, h4, h5]⟩
    | cons x r2 =>
      by_cases hx1 : x = '='
      · refine Or.inr (Or.inl ⟨x, r2, TT.EqualEqual, rfl, Or.inl hx1, Or.inl rfl, ?_⟩)
        simp [tokStep, h1, h2, h3, h4, h5, hx1]
      by_cases hx2 : x = '>'
      · refine Or.inr (Or.inl ⟨x, r2, TT.EqualGreater, rfl, Or.inr hx2, Or.inr rfl, ?_⟩)
        simp [tokStep, h1, h2, h3, h4, h5, hx1, hx2]
      · refine Or.inl ⟨TT.Equal, by decide, ?_⟩
        simp [tokStep, h1, h2, h3, h4, h5, hx1, hx2]
  by_cases h6 : c = '('
  · exact Or.inl ⟨TT.LParen, by decide, by simp [tokStep, h1, h2, h3, h4, h5, h6]⟩
  by_cases h7 : c = ')'
  · exact Or.inl ⟨TT.RParen, by decide, by simp [tokStep, h1, h2, h3, h4, h5, h6, h7]⟩
  by_cases h8 : c = '['
  · exact Or.inl ⟨TT.LBracket, by decide,
      by simp [tokStep, h1, h2, h3, h4, h5, h6, h7, h8]⟩
  by_cases h9 : c = ']'
  · exact Or.inl ⟨TT.RBracket, by decide,
      by simp [tokStep, h1, h2, h3, h4, h5, h6, h7, h8, h9]⟩
  by_cases h10 : c = '{'
  · exact Or.inl ⟨TT.LBrace, by decide,
      by simp [tokStep, h1, h2, h3, h4, h5, h6, h7, h8, h9, h10]⟩
  by_cases h11 : c = '}'
  · exact Or.inl ⟨TT.RBrace, by decide,
      by simp [tokStep, h1, h2, h3, h4, h5, h6, h7, h8, h9, h10, h11]⟩
  by_cases h12 : c = '.'
  · exact Or.inl ⟨TT.Dot, by decide,
      by simp [tokStep, h1, h2, h3, h4, h5, h6, h7, h8, h9, h10, h11, h12]⟩
  by_cases h13 : c = ','
  · exact Or.inl ⟨TT.Comma, by decide,
      by simp [tokStep, h1, h2, h3, h4, h5, h6, h7, h8, h9, h10, h11, h12, h13]⟩
  by_cases h14 : c = ':'
  · exact Or.inl ⟨TT.Colon, by decide,
      by simp [tokStep, h1, h2, h3, h4, h5, h6, h7, h8, h9, h10, h11, h12, h13, h14]⟩
  by_cases h15 : c = ';'
  · exact Or.inl ⟨TT.SemiColon, by decide,
      by simp [tokStep, h1, h2, h3, h4, h5, h6, h7, h8, h9, h10, h11, h12, h13, h14, h15]⟩
  by_cases hws : rustIsWhitespace c = true
  · refine Or.inr (Or.inr (Or.inl ⟨hws, ?_⟩))
    simp [tokStep, h1, h2, h3, h4, h5, h6, h7, h8, h9, h10, h11, h12, h13, h14, h15, hws]
  by_cases hnum : rustIsNumeric c = true
  · by_cases hdot : (rest.dropWhile rustIsNumeric).head? = some '.'
    · refine Or.inr (Or.inr (Or.inr (Or.inl ⟨hdot, ?_⟩)))
      simp [tokStep, h1, h2, h3, h4, h5, h6, h7, h8, h9, h10, h11, h12, h13, h14, h15,
        hws, hnum, hdot]
    · refine Or.inr (Or.inr (Or.inr (Or.inr (Or.inl ?_))))
      simp [tokStep, h1, h2, h3, h4, h5, h6, h7, h8, h9, h10, h11, h12, h13, h14, h15,
        hws, hnum, hdot]
  by_cases halpha : rustIsAlphabetic c = true
  · cases hsl : strSlice src st.current
        (st.current + 1 + (rest.takeWhile rustIsAlphanumeric).length) with
    | none =>
      refine Or.inr (Or.inr (Or.inr (Or.inr (Or.inr (Or.inr (Or.inl ?_))))))
      simp [tokStep, h1, h2, h3, h4, h5, h6, h7, h8, h9, h10, h11, h12, h13, h14, h15,
        hws, hnum, halpha, hsl]
    | some check =>
      refine Or.inr (Or.inr (Or.inr (Or.inr (Or.inr (Or.inl ⟨check, ?_⟩)))))
      simp [tokStep, h1, h2, h3, h4, h5, h6, h7, h8, h9, h10, h11, h12, h13, h14, h15,
        hws, hnum, halpha, hsl]
  · refine Or.inr (Or.inr (Or.inr (Or.inr (Or.inr (Or.inr (Or.inr ?_))))))
    simp [tokStep, h1, h2, h3, h4, h5, h6, h7, h8, h9, h10, h11, h12, h13, h14, h15,
      hws, hnum, halpha]

theorem tokLoop_ws (src : List Char) :
    ∀ (fuel : Nat) (rem : List Char) (st : Tokenize), rem.length ≤ fuel →
      (∀ c ∈ rem, rustIsWhitespace c = true) →
      ∃ st2, tokLoop src fuel rem st = PRes.ok st2 ∧
        st2.tokens = st.tokens ∧ st2.report = st.report := by
  intro fuel
  induction fuel with
  | zero =>
    intro rem st hlen _
    have : rem = [] := List.length_eq_zero.mp (Nat.le_zero.mp hlen)
    subst this
    exact ⟨st, tokLoop_nil src 0 st, rfl, rfl⟩
  | succ n ih =>
    intro rem st hlen hws
    cases rem with
    | nil => exact ⟨st, tokLoop_nil src (n + 1) st, rfl, rfl⟩
    | cons c rest =>
      have hc : rustIsWhitespace c = true := hws c (by simp)
      obtain ⟨h1, h2, h3, h4, h5, h6, h7, h8, h9, h10, h11, h12, h13, h14, h15⟩ :=
        ws_not_symbol hc
      have hstep : tokStep src c rest st = PRes.ok (rest, stepState st) := by
        simp [tokStep, h1, h2, h3, h4, h5, h6, h7, h8, h9, h10, h11, h12, h13, h14,
          h15, hc]
      have hlen2 : rest.length ≤ n := by
        simp only [List.length_cons] at hlen
        omega
      obtain ⟨st2, he, htk, hrp⟩ :=
        ih rest (stepState st) hlen2 (fun a haa => hws a (by simp [haa]))
      refine ⟨st2, ?_, htk, hrp⟩
      simp only [tokLoop, hstep]
      exact he

theorem add_report (st : Tokenize) (k : TT) : (st.add k).report = st.report := rfl

theorem eof_report (st : Tokenize) : (st.eof).report = st.report := rfl

theorem eof_tokens (st : Tokenize) :
    (st.eof).tokens = st.tokens ++ [Token.mk TT.Eof (0, 0)] := rfl

theorem stepState_report (st : Tokenize) : (stepState st).report = st.report := rfl

/-- Every scanner step either panics or returns: on a return the report is
either unchanged or extended by one error (setting the fault flag), the
token list only grows, by tokens whose kinds the scanner can actually emit,
and the iterator only shrinks. -/
theorem tokStep_shape (src : List Char) (c : Char) (rest : List Char) (st : Tokenize) :
    tokStep src c rest st = PRes.abort ∨
    ∃ rem2 st2, tokStep src c rest st = PRes.ok (rem2, st2) ∧
      rem2.length ≤ rest.length ∧
      (st2.report = st.report ∨
        (st2.report.fault = true ∧ st2.report.errors ≠ [])) ∧
      (∃ new, st2.tokens = st.tokens ++ new ∧
        ∀ t ∈ new, t.kind ∉ ([TT.Bang, TT.BangEqual, TT.Lesser, TT.LesserEqual,
          TT.Greater, TT.GreaterEqual] : List TT)) := by
  rcases tokStep_cases src c rest st with
    ⟨k, hk, he⟩ | ⟨x, r2, k, hr, _, hk, he⟩ | ⟨_, he⟩ | ⟨_, he⟩ | he | ⟨ch, he⟩ |
    habort | he
  · refine Or.inr ⟨_, _, he, le_refl _,
      Or.inl (by simp [Tokenize.add, stepState]), ?_⟩
    refine ⟨[Token.mk k (asU32 st.current, asU32 (st.current + 1))],
      by simp [Tokenize.add, stepState], ?_⟩
    intro t ht
    rcases List.mem_singleton.mp ht with rfl
    fin_cases hk <;> simp
  · subst hr
    refine Or.inr ⟨_, _, he, by simp,
      Or.inl (by simp [Tokenize.add, stepState]), ?_⟩
    refine ⟨[Token.mk k (asU32 st.current, asU32 (st.current + 1 + 1))],
      by simp [Tokenize.add, stepState], ?_⟩
    intro t ht
    rcases List.mem_singleton.mp ht with rfl
    rcases hk with rfl | rfl <;> simp
  · exact Or.inr ⟨_, _, he, le_refl _, Or.inl (by simp [stepState]),
      ⟨[], by simp [stepState], by simp⟩⟩
  · refine Or.inr ⟨_, _, he, ?_,
      Or.inl (by simp [Tokenize.add, stepState]), ?_⟩
    · have hs1 := (@List.dropWhile_sublist _ rest rustIsNumeric).length_le
      have hs2 :=
        (@List.dropWhile_sublist _ ((rest.dropWhile rustIsNumeric).tail) rustIsNumeric).length_le
      have hs3 := @List.length_tail _ (rest.dropWhile rustIsNumeric)
      omega
    · refine ⟨[Token.mk TT.Float
          (asU32 st.current,
            asU32 (st.current + 1 + (rest.takeWhile rustIsNumeric).length + 1 +
              (((rest.dropWhile rustIsNumeric).tail).takeWhile rustIsNumeric).length))],
        by simp [Tokenize.add, stepState], ?_⟩
      intro t ht
      rcases List.mem_singleton.mp ht with rfl
      simp
  · refine Or.inr ⟨_, _, he, ?_,
      Or.inl (by simp [Tokenize.add, stepState]), ?_⟩
    · have hs1 := (@List.dropWhile_sublist _ rest rustIsNumeric).length_le
      omega
    · refine ⟨[Token.mk TT.Integer
          (asU32 st.current,
            asU32 (st.current + 1 + (rest.takeWhile rustIsNumeric).length))],
        by simp [Tokenize.add, stepState], ?_⟩
      intro t ht
      rcases List.mem_singleton.mp ht with rfl
      simp
  · refine Or.inr ⟨_, _, he, ?_,
      Or.inl (by simp [Tokenize.add, stepState]), ?_⟩
    · have hs1 := (@List.dropWhile_sublist _ rest rustIsAlphanumeric).length_le
      omega
    · refine ⟨[Token.mk (keywordKind ch)
          (asU32 st.current,
            asU32 (st.current + 1 + (rest.takeWhile rustIsAlphanumeric).length))],
        by simp [Tokenize.add, stepState], ?_⟩
      intro t ht
      rcases List.mem_singleton.mp ht with rfl
      unfold keywordKind
      repeat' split
      all_goals simp
  · exact Or.inl habort
  · refine Or.inr ⟨_, _, he, le_refl _,
      Or.inr ⟨by simp [Report.error], by simp [Report.error]⟩,
      ⟨[], by simp [stepState], by simp⟩⟩

/-- The scan loop's result does not depend on the fuel, as long as the fuel
covers the remaining characters: each iteration consumes at least one
character, so `tokRun`'s choice of `src.length` is always sufficient. -/
theorem tokLoop_fuel (src : List Char) :
    ∀ (f1 f2 : Nat) (rem : List Char) (st : Tokenize), rem.length ≤ f1 →
      rem.length ≤ f2 → tokLoop src f1 rem st = tokLoop src f2 rem st := by
  intro f1
  induction f1 with
  | zero =>
    intro f2 rem st h1 h2
    have : rem = [] := List.length_eq_zero.mp (Nat.le_zero.mp h1)
    subst this
    rw [tokLoop_nil, tokLoop_nil]
  | succ n ih =>
    intro f2 rem st h1 h2
    cases rem with
    | nil => rw [tokLoop_nil, tokLoop_nil]
    | cons c rest =>
      cases f2 with
      | zero => simp at h2
      | succ m =>
        rcases tokStep_shape src c rest st with habort | ⟨rem2, st2, hok, hlen, _, _⟩
        · simp [tokLoop, habort]
        · simp only [tokLoop, hok]
          simp only [List.length_cons] at h1 h2
          exact ih m rem2 st2 (by omega) (by omega)

theorem tokLoop_sync (src : List Char) :
    ∀ (fuel : Nat) (rem : List Char) (st : Tokenize),
      st.report.fault = !st.report.errors.isEmpty →
      ∀ st2, tokLoop src fuel rem st = PRes.ok st2 →
        st2.report.fault = !st2.report.errors.isEmpty := by
  intro fuel
  induction fuel with
  | zero =>
    intro rem st h st2 he
    have h0 : tokLoop src 0 rem st = PRes.ok st := rfl
    rw [h0] at he
    injection he with h3
    subst h3
    exact h
  | succ n ih =>
    intro rem st h st2 he
    cases rem with
    | nil =>
      rw [tokLoop_nil] at he
      injection he with h3
      subst h3
      exact h
    | cons c rest =>
      rcases tokStep_shape src c rest st with habort | ⟨rem2, st1, hok, _, hrep, _⟩
      · simp [tokLoop, habort] at he
      · simp only [tokLoop, hok] at he
        refine ih rem2 st1 ?_ st2 he
        rcases hrep with hr | ⟨hf, herr⟩
        · rw [hr]; exact h
        · rw [hf]
          cases hh : st1.report.errors with
          | nil => exact absurd hh herr
          | cons a t => simp

theorem tokLoop_fault_mono (src : List Char) :
    ∀ (fuel : Nat) (rem : List Char) (st : Tokenize),
      st.report.fault = true →
      ∀ st2, tokLoop src fuel rem st = PRes.ok st2 →
        st2.report.fault = true := by
  intro fuel
  induction fuel with
  | zero =>
    intro rem st h st2 he
    have h0 : tokLoop src 0 rem st = PRes.ok st := rfl
    rw [h0] at he
    injection he with h3
    subst h3
    exact h
  | succ n ih =>
    intro rem st h st2 he
    cases rem with
    | nil =>
      rw [tokLoop_nil] at he
      injection he with h3
      subst h3
      exact h
    | cons c rest =>
      rcases tokStep_shape src c rest st with habort | ⟨rem2, st1, hok, _, hrep, _⟩
      · simp [tokLoop, habort] at he
      · simp only [tokLoop, hok] at he
        refine ih rem2 st1 ?_ st2 he
        rcases hrep with hr | ⟨hf, _⟩
        · rw [hr]; exact h
        · exact hf

theorem tokLoop_kinds (src : List Char) :
    ∀ (fuel : Nat) (rem : List Char) (st : Tokenize),
      (∀ t ∈ st.tokens, t.kind ∉ ([TT.Bang, TT.BangEqual, TT.Lesser,
        TT.LesserEqual, TT.Greater, TT.GreaterEqual] : List TT)) →
      ∀ st2, tokLoop src fuel rem st = PRes.ok st2 →
        ∀ t ∈ st2.tokens,
          t.kind ∉ ([TT.Bang, TT.BangEqual, TT.Lesser, TT.LesserEqual,
            TT.Greater, TT.GreaterEqual] : List TT) := by
  intro fuel
  induction fuel with
  | zero =>
    intro rem st h st2 he
    have h0 : tokLoop src 0 rem st = PRes.ok st := rfl
    rw [h0] at he
    injection he with h3
    subst h3
    exact h
  | succ n ih =>
    intro rem st h st2 he
    cases rem with
    | nil =>
      rw [tokLoop_nil] at he
      injection he with h3
      subst h3
      exact h
    | cons c rest =>
      rcases tokStep_shape src c rest st with habort | ⟨rem2, st1, hok, _, _, htoks⟩
      · simp [tokLoop, habort] at he
      · simp only [tokLoop, hok] at he
        refine ih rem2 st1 ?_ st2 he
        obtain ⟨new, hn, hgood⟩ := htoks
        intro t ht
        rw [hn] at ht
        rcases List.mem_append.mp ht with h2 | h2
        · exact h t h2
        · exact hgood t h2

theorem tokStep_keeps (src : List Char) (c : Char) (rest : List Char)
    (st : Tokenize) (c0 : Char)
    (hnum : rustIsNumeric c0 = false) (halnum : rustIsAlphanumeric c0 = false)
    (heq : c0 ≠ '=') (hgt : c0 ≠ '>') (hdot : c0 ≠ '.')
    (hmem : c0 ∈ rest) :
    ∀ rem2 st2, tokStep src c rest st = PRes.ok (rem2, st2) → c0 ∈ rem2 := by
  intro rem2 st2 hstep
  rcases tokStep_cases src c rest st with
    ⟨k, _, he⟩ | ⟨x, r2, k, hr, hx, _, he⟩ | ⟨_, he⟩ | ⟨hhd, he⟩ | he | ⟨ch, he⟩ |
    habort | he
  · rw [he] at hstep
    injection hstep with h3
    injection h3 with h4 h5
    subst h4
    exact hmem
  · subst hr
    rw [he] at hstep
    injection hstep with h3
    injection h3 with h4 h5
    subst h4
    rcases List.mem_cons.mp hmem with rfl | h2
    · rcases hx with rfl | rfl
      · exact absurd rfl heq
      · exact absurd rfl hgt
    · exact h2
  · rw [he] at hstep
    injection hstep with h3
    injection h3 with h4 h5
    subst h4
    exact hmem
  · rw [he] at hstep
    injection hstep with h3
    injection h3 with h4 h5
    subst h4
    have h1 : c0 ∈ rest.dropWhile rustIsNumeric := mem_dropWhile_of_neg hnum hmem
    cases hdw : rest.dropWhile rustIsNumeric with
    | nil => rw [hdw] at hhd; cases hhd
    | cons a t =>
      rw [hdw] at hhd h1
      have ha : a = '.' := by simpa using hhd
      subst ha
      have h2 : c0 ∈ t := by
        rcases List.mem_cons.mp h1 with rfl | h2
        · exact absurd rfl hdot
        · exact h2
      exact mem_dropWhile_of_neg hnum h2
  · rw [he] at hstep
    injection hstep with h3
    injection h3 with h4 h5
    subst h4
    exact mem_dropWhile_of_neg hnum hmem
  · rw [he] at hstep
    injection hstep with h3
    injection h3 with h4 h5
    subst h4
    exact mem_dropWhile_of_neg halnum hmem
  · rw [habort] at hstep
    simp at hstep
  · rw [he] at hstep
    injection hstep with h3
    injection h3 with h4 h5
    subst h4
    exact hmem

theorem tokStep_unknown (src : List Char) (c : Char) (rest : List Char)
    (st : Tokenize)
    (h1 : ¬c = '+') (h2 : ¬c = '-') (h3 : ¬c = '*') (h4 : ¬c = '/')
    (h5 : ¬c = '=') (h6 : ¬c = '(') (h7 : ¬c = ')') (h8 : ¬c = '[')
    (h9 : ¬c = ']') (h10 : ¬c = '{') (h11 : ¬c = '}') (h12 : ¬c = '.')
    (h13 : ¬c = ',') (h14 : ¬c = ':') (h15 : ¬c = ';')
    (hws : rustIsWhitespace c = false) (hnum : rustIsNumeric c = false)
    (halpha : rustIsAlphabetic c = false) :
    tokStep src c rest st =
      PRes.ok (rest,
        { stepState st with report :=
            (st.report.error
              ("unknown character '" ++ String.mk [c] ++ "' at " ++
                toString st.current)) }) := by
  simp [tokStep, h1, h2, h3, h4, h5, h6, h7, h8, h9, h10, h11, h12, h13, h14,
    h15, hws, hnum, halpha]

theorem tokLoop_bad (src : List Char) (c0 : Char) (hc0 : c0 = '!' ∨ c0 = '<') :
    ∀ (fuel : Nat) (rem : List Char) (st : Tokenize), rem.length ≤ fuel →
      c0 ∈ rem → ∀ st2, tokLoop src fuel rem st = PRes.ok st2 →
        st2.report.fault = true := by
  have hnum : rustIsNumeric c0 = false := by rcases hc0 with rfl | rfl <;> decide
  have halnum : rustIsAlphanumeric c0 = false := by
    rcases hc0 with rfl | rfl <;> decide
  have heq : c0 ≠ '=' := by rcases hc0 with rfl | rfl <;> decide
  have hgt : c0 ≠ '>' := by rcases hc0 with rfl | rfl <;> decide
  have hdot : c0 ≠ '.' := by rcases hc0 with rfl | rfl <;> decide
  intro fuel
  induction fuel with
  | zero =>
    intro rem st hlen hmem
    have : rem = [] := List.length_eq_zero.mp (Nat.le_zero.mp hlen)
    subst this
    cases hmem
  | succ n ih =>
    intro rem st hlen hmem st2 he
    cases rem with
    | nil => cases hmem
    | cons c rest =>
      by_cases hcc : c = c0
      · subst hcc
        have hstep :=
          tokStep_unknown src c rest st
            (by rcases hc0 with rfl | rfl <;> decide)
            (by rcases hc0 with rfl | rfl <;> decide)
            (by rcases hc0 with rfl | rfl <;> decide)
            (by rcases hc0 with rfl | rfl <;> decide)
            (by rcases hc0 with rfl | rfl <;> decide)
            (by rcases hc0 with rfl | rfl <;> decide)
            (by rcases hc0 with rfl | rfl <;> decide)
            (by rcases hc0 with rfl | rfl <;> decide)
            (by rcases hc0 with rfl | rfl <;> decide)
            (by rcases hc0 with rfl | rfl <;> decide)
            (by rcases hc0 with rfl | rfl <;> decide)
            (by rcases hc0 with rfl | rfl <;> decide)
            (by rcases hc0 with rfl | rfl <;> decide)
            (by rcases hc0 with rfl | rfl <;> decide)
            (by rcases hc0 with rfl | rfl <;> decide)
            (by rcases hc0 with rfl | rfl <;> decide)
            (by rcases hc0 with rfl | rfl <;> decide)
            (by rcases hc0 with rfl | rfl <;> decide)
        simp only [tokLoop, hstep] at he
        exact tokLoop_fault_mono src n rest _ (by simp [Report.error]) st2 he
      · have hmem2 : c0 ∈ rest := by
          rcases List.mem_cons.mp hmem with h | h
          · exact absurd h.symm hcc
          · exact h
        rcases tokStep_shape src c rest st with habort | ⟨rem2, st1, hok, hlen', _, _⟩
        · simp [tokLoop, habort] at he
        · simp only [tokLoop, hok] at he
          have hlen2 : rem2.length ≤ n := by
            simp only [List.length_cons] at hlen
            omega
          exact ih rem2 st1 hlen2
            (tokStep_keeps src c rest st c0 hnum halnum heq hgt hdot hmem2 rem2 st1 hok)
            st2 he

theorem isCharBoundary_zero (s : List Char) : isCharBoundary s 0 = true := by
  cases s <;> rfl

theorem strSliceChars_zero (s : List Char) : strSliceChars s 0 0 = [] := by
  cases s <;> simp [strSliceChars]

theorem strSlice_zero (s : List Char) : strSlice s 0 0 = some [] := by
  unfold strSlice
  rw [if_pos ⟨le_refl 0, isCharBoundary_zero s, isCharBoundary_zero s⟩,
    strSliceChars_zero]

theorem digit_not_symbol {c : Char} (h : rustIsNumeric c = true) :
    ¬(c = '+') ∧ ¬(c = '-') ∧ ¬(c = '*') ∧ ¬(c = '/') ∧ ¬(c = '=') ∧ ¬(c = '(') ∧
    ¬(c = ')') ∧ ¬(c = '[') ∧ ¬(c = ']') ∧ ¬(c = '{') ∧ ¬(c = '}') ∧ ¬(c = '.') ∧
    ¬(c = ',') ∧ ¬(c = ':') ∧ ¬(c = ';') ∧ rustIsWhitespace c = false := by
  have hb := of_decide_eq_true h
  have hws : rustIsWhitespace c = false := by
    apply decide_eq_false
    intro hmem
    have hall : ∀ n ∈ [0x09, 0x0A, 0x0B, 0x0C, 0x0D, 0x20, 0x85, 0xA0, 0x1680,
        0x2000, 0x2001, 0x2002, 0x2003, 0x2004, 0x2005, 0x2006, 0x2007,
        0x2008, 0x2009, 0x200A, 0x2028, 0x2029, 0x202F, 0x205F, 0x3000],
        ¬((48 ≤ n ∧ n ≤ 57) ∨
          n ∈ [0xB2, 0xB3, 0xB9, 0xBC, 0xBD, 0xBE]) := by decide
    exact hall _ hmem hb
  refine ⟨?_, ?_, ?_, ?_, ?_, ?_, ?_, ?_, ?_, ?_, ?_, ?_, ?_, ?_, ?_, hws⟩ <;>
    · intro he
      subst he
      revert hb
      decide

theorem tokStep_int (src : List Char) (c : Char) (rest : List Char)
    (st : Tokenize) (hd : rustIsNumeric c = true)
    (hrest : ∀ a ∈ rest, rustIsNumeric a = true) :
    tokStep src c rest st =
      PRes.ok ([],
        ({ stepState st with current := st.current + 1 + rest.length }).add
          TT.Integer) := by
  obtain ⟨h1, h2, h3, h4, h5, h6, h7, h8, h9, h10, h11, h12, h13, h14, h15, hws⟩ :=
    digit_not_symbol hd
  obtain ⟨ht, hdw⟩ := takeWhile_all hrest
  simp [tokStep, h1, h2, h3, h4, h5, h6, h7, h8, h9, h10, h11, h12, h13, h14,
    h15, hws, hd, ht, hdw]

theorem tokStep_float (src : List Char) (c : Char) (ds1 ds2 : List Char)
    (st : Tokenize) (hd : rustIsNumeric c = true)
    (hds1 : ∀ a ∈ ds1, rustIsNumeric a = true)
    (hds2 : ∀ a ∈ ds2, rustIsNumeric a = true) :
    tokStep src c (ds1 ++ '.' :: ds2) st =
      PRes.ok ([],
        ({ stepState st with
            current := st.current + 1 + ds1.length + 1 + ds2.length }).add
          TT.Float) := by
  obtain ⟨h1, h2, h3, h4, h5, h6, h7, h8, h9, h10, h11, h12, h13, h14, h15, hws⟩ :=
    digit_not_symbol hd
  obtain ⟨hta, hda⟩ := takeWhile_append_stop '.' ds2 (by decide) ds1 hds1
  obtain ⟨ht2, hd2⟩ := takeWhile_all hds2
  simp [tokStep, h1, h2, h3, h4, h5, h6, h7, h8, h9, h10, h11, h12, h13, h14,
    h15, hws, hd, hta, hda, ht2, hd2]

/-- A completed scanner pass is the loop's final state plus the Eof push. -/
theorem tokRun_ok {src : List Char} {st : Tokenize} (h : tokRun src = PRes.ok st) :
    ∃ st0, tokLoop src src.length src Tokenize.new = PRes.ok st0 ∧ st = st0.eof := by
  unfold tokRun at h
  cases h0 : tokLoop src src.length src Tokenize.new with
  | ok st0 =>
    rw [h0] at h
    injection h with h2
    exact ⟨st0, rfl, h2.symm⟩
  | abort => rw [h0] at h; simp at h
  | nofuel => rw [h0] at h; simp at h

/-- tokenize's value on a completed scan: the success test on the report. -/
theorem tokenize_eq (src : List Char) (st : Tokenize) (h : tokRun src = PRes.ok st) :
    tokenize src =
      (if st.report.ok then PRes.ok (Except.ok ⟨src, st.tokens⟩)
        else PRes.ok (Except.error st.report)) := by
  unfold tokenize
  rw [h]

/-- A tokenize return (success or report) means the scan completed. -/
theorem tokenize_ok_inv {src : List Char} {r : Except Report TokenStream}
    (h : tokenize src = PRes.ok r) : ∃ st, tokRun src = PRes.ok st := by
  unfold tokenize at h
  cases h0 : tokRun src with
  | ok st => exact ⟨st, rfl⟩
  | abort => rw [h0] at h; simp at h
  | nofuel => rw [h0] at h; simp at h

theorem wf_append {ns : List Node} {v : Node} (h : NodesWF ns)
    (hv : ∀ j ∈ v.refs, j < ns.length) : NodesWF (ns ++ [v]) := by
  intro i n hi j hj
  rcases Nat.lt_trichotomy i ns.length with hlt | heq | hgt
  · rw [List.get?_append hlt] at hi
    exact h i n hi j hj
  · subst heq
    rw [List.get?_concat_length] at hi
    injection hi with hi
    subst hi
    exact hv j hj
  · have hle : (ns ++ [v]).length ≤ i := by
      simp only [List.length_append, List.length_cons, List.length_nil]
      omega
    rw [List.get?_eq_none.mpr hle] at hi
    cases hi

theorem padd_eq (st : PSt) (v : Node) :
    padd st v = (st.nodes.length, { st with nodes := st.nodes ++ [v] }) := rfl

theorem goodN_padd {st st2 : PSt} {v : Node}
    (hmono : st.nodes.length ≤ st2.nodes.length)
    (hrefs : ∀ j ∈ v.refs, j < st2.nodes.length)
    (hpres : NodesWF st.nodes → NodesWF st2.nodes) :
    GoodN st (.ok (padd st2 v)) := by
  refine ⟨?_, ?_, fun hwf => wf_append (hpres hwf) hrefs⟩
  · show st.nodes.length ≤ (st2.nodes ++ [v]).length
    simp only [List.length_append, List.length_cons, List.length_nil]
    omega
  · show st2.nodes.length < (st2.nodes ++ [v]).length
    simp only [List.length_append, List.length_cons, List.length_nil]
    omega

theorem goodN_step {st st1 : PSt} (h1 : st.nodes.length ≤ st1.nodes.length)
    (hp1 : NodesWF st.nodes → NodesWF st1.nodes) {r : PRes (Nat × PSt)}
    (h : GoodN st1 r) : GoodN st r := by
  cases r with
  | ok a =>
    obtain ⟨i, st2⟩ := a
    obtain ⟨m, b, p⟩ := h
    exact ⟨le_trans h1 m, b, fun w => p (hp1 w)⟩
  | abort => trivial
  | nofuel => trivial

theorem goodL_step {st st1 : PSt} (h1 : st.nodes.length ≤ st1.nodes.length)
    (hp1 : NodesWF st.nodes → NodesWF st1.nodes)
    {r : PRes (List Nat × PSt)} (h : GoodL st1 r) : GoodL st r := by
  cases r with
  | ok a =>
    obtain ⟨is, st2⟩ := a
    obtain ⟨m, b, p⟩ := h
    exact ⟨le_trans h1 m, b, fun w => p (hp1 w)⟩
  | abort => trivial
  | nofuel => trivial

theorem goodA_step {st st1 : PSt} (h1 : st.nodes.length ≤ st1.nodes.length)
    (hp1 : NodesWF st.nodes → NodesWF st1.nodes)
    {r : PRes (List (Token × Option Nat) × PSt)} (h : GoodA st1 r) :
    GoodA st r := by
  cases r with
  | ok a =>
    obtain ⟨args, st2⟩ := a
    obtain ⟨m, b, p⟩ := h
    exact ⟨le_trans h1 m, b, fun w => p (hp1 w)⟩
  | abort => trivial
  | nofuel => trivial

theorem pcatch_cases (tk : List Token) (ks : List TT) (st : PSt) :
    pcatch tk ks st = (none, st) ∨
    ∃ t, tk.get? st.pos = some t ∧ ks.contains t.kind = true ∧
      pcatch tk ks st = (some t, { st with pos := st.pos + 1 }) := by
  unfold pcatch
  cases h : tk.get? st.pos with
  | none => exact Or.inl rfl
  | some t =>
    by_cases hk : ks.contains t.kind = true
    · have hk2 : t.kind ∈ ks := by simpa using hk
      exact Or.inr ⟨t, rfl, hk, by simp [hk2]⟩
    · have hk2 : t.kind ∉ ks := by simpa using hk
      exact Or.inl (by simp [hk2])

theorem pcatch_snd_nodes (tk : List Token) (ks : List TT) (st : PSt) :
    ((pcatch tk ks st).2).nodes = st.nodes := by
  rcases pcatch_cases tk ks st with h | ⟨t, _, _, h⟩ <;> rw [h]

theorem goodN_eqstep {st st1 : PSt} (h : st1.nodes = st.nodes)
    {r : PRes (Nat × PSt)} (hg : GoodN st1 r) : GoodN st r :=
  goodN_step (le_of_eq (congrArg List.length h).symm)
    (fun w => by rw [h]; exact w) hg

/-- Combined induction on fuel: every parser production, on a normal
return, only appends to the node arena, returns an in-range handle, and
preserves the handles-point-strictly-down invariant; the loops moreover
keep every accumulated handle in range. -/
theorem parser_inv : ∀ fuel : Nat,
    (∀ tk st, GoodN st (moduleP tk fuel st)) ∧
    (∀ tk endP st, GoodN st (blockP tk endP fuel st)) ∧
    (∀ tk endP acc st, (∀ i ∈ acc, i < st.nodes.length) →
      GoodL st (blockLoop tk endP acc fuel st)) ∧
    (∀ tk st, GoodN st (statementP tk fuel st)) ∧
    (∀ tk st, GoodN st (expressionP tk fuel st)) ∧
    (∀ tk st, GoodN st (functionP tk fuel st)) ∧
    (∀ tk acc st, (∀ p ∈ acc, ∀ j : Nat, p.2 = some j → j < st.nodes.length) →
      GoodA st (fnArgsLoop tk acc fuel st)) ∧
    (∀ tk st, GoodN st (jumpP tk fuel st)) ∧
    (∀ tk st, GoodN st (equalityP tk fuel st)) ∧
    (∀ tk left st, left < st.nodes.length → GoodN st (eqLoop tk left fuel st)) ∧
    (∀ tk st, GoodN st (termP tk fuel st)) ∧
    (∀ tk left st, left < st.nodes.length → GoodN st (termLoop tk left fuel st)) ∧
    (∀ tk st, GoodN st (factorP tk fuel st)) ∧
    (∀ tk left st, left < st.nodes.length → GoodN st (factorLoop tk left fuel st)) ∧
    (∀ tk st, GoodN st (unaryP tk fuel st)) ∧
    (∀ tk st, GoodN st (callP tk fuel st)) ∧
    (∀ tk expr st, expr < st.nodes.length → GoodN st (callLoop tk expr fuel st)) ∧
    (∀ tk acc st, (∀ i ∈ acc, i < st.nodes.length) →
      GoodL st (callArgsLoop tk acc fuel st)) ∧
    (∀ tk st, GoodN st (primaryP tk fuel st)) ∧
    (∀ tk st, GoodN st (typeExpressionP tk fuel st)) ∧
    (∀ tk st, GoodN st (typePrimaryP tk fuel st)) := by
  intro fuel
  induction fuel with
  | zero =>
    refine ⟨fun tk st => ?_, fun tk e st => ?_, fun tk e a st _ => ?_,
      fun tk st => ?_, fun tk st => ?_, fun tk st => ?_, fun tk a st _ => ?_,
      fun tk st => ?_, fun tk st => ?_, fun tk l st _ => ?_, fun tk st => ?_,
      fun tk l st _ => ?_, fun tk st => ?_, fun tk l st _ => ?_,
      fun tk st => ?_, fun tk st => ?_, fun tk e st _ => ?_,
      fun tk a st _ => ?_, fun tk st => ?_, fun tk st => ?_, fun tk st => ?_⟩ <;>
      trivial
  | succ n ih =>
    obtain ⟨ihMod, ihBlk, ihBlkL, ihStmt, ihExpr, ihFn, ihArgs, ihJump, ihEq,
      ihEqL, ihTerm, ihTermL, ihFac, ihFacL, ihUn, ihCall, ihCallL, ihCArgs,
      ihPrim, ihTyE, ihTyP⟩ := ih
    refine ⟨?_, ?_, ?_, ?_, ?_, ?_, ?_, ?_, ?_, ?_, ?_, ?_, ?_, ?_, ?_, ?_,
      ?_, ?_, ?_, ?_, ?_⟩
    -- moduleP
    · intro tk st
      simp only [moduleP]
      split
      · rename_i root st1 hb
        have hg := ihBlk tk (fun _ => false) st
        rw [hb] at hg
        obtain ⟨hm, hroot, hp⟩ := hg
        refine goodN_padd hm ?_ hp
        intro j hj
        simp only [Node.refs, List.mem_singleton] at hj
        subst hj
        exact hroot
      · trivial
      · trivial
    -- blockP
    · intro tk endP st
      simp only [blockP]
      split
      · rename_i es st1 hb
        have hg := ihBlkL tk endP [] st (by intro i hi; cases hi)
        rw [hb] at hg
        obtain ⟨hm, hes, hp⟩ := hg
        refine goodN_padd hm ?_ hp
        intro j hj
        simp only [Node.refs] at hj
        exact hes j hj
      · trivial
      · trivial
    -- blockLoop
    · intro tk endP acc st hacc
      simp only [blockLoop]
      split
      · exact ⟨le_refl _, hacc, fun w => w⟩
      · rename_i c hg
        split
        · exact ⟨le_refl _, hacc, fun w => w⟩
        · split
          · exact ⟨le_refl _, hacc, fun w => w⟩
          · split
            · rename_i i st1 hs
              have hg1 := ihStmt tk st
              rw [hs] at hg1
              obtain ⟨hm, hi, hp⟩ := hg1
              rcases pcatch_cases tk [TT.SemiColon] st1 with hpc | ⟨u, _, _, hpc⟩ <;>
                rw [hpc] <;>
                · refine goodL_step hm hp (ihBlkL tk endP (acc ++ [i]) _ ?_)
                  intro j hj
                  rcases List.mem_append.mp hj with h2 | h2
                  · exact lt_of_lt_of_le (hacc j h2) hm
                  · rcases List.mem_singleton.mp h2 with rfl
                    exact hi
            · trivial
            · trivial
    -- statementP
    · intro tk st
      simp only [statementP]
      split
      · rename_i op st1 hpc1
        have hn1 : st1.nodes = st.nodes := by
          have hh := pcatch_snd_nodes tk [TT.Let, TT.Mut] st
          rw [hpc1] at hh
          exact hh
        split
        · trivial
        · rename_i name st2 hpc2
          have hn2 : st2.nodes = st1.nodes := by
            have hh := pcatch_snd_nodes tk [TT.Identifier] st1
            rw [hpc2] at hh
            exact hh
          split
          · rename_i u3 st3 hpc3
            have hn3 : st3.nodes = st2.nodes := by
              have hh := pcatch_snd_nodes tk [TT.Colon] st2
              rw [hpc3] at hh
              exact hh
            split
            · rename_i ann st4 hty
              have hgT := ihTyE tk st3
              rw [hty] at hgT
              obtain ⟨hm4, hann, hp4⟩ := hgT
              split
              · trivial
              · rename_i u5 st5 hpc5
                have hn5 : st5.nodes = st4.nodes := by
                  have hh := pcatch_snd_nodes tk [TT.Equal] st4
                  rw [hpc5] at hh
                  exact hh
                split
                · rename_i expr st6 hex
                  have hgE := ihExpr tk st5
                  rw [hex] at hgE
                  obtain ⟨hm6, hexpr, hp6⟩ := hgE
                  have e1 := congrArg List.length hn1
                  have e2 := congrArg List.length hn2
                  have e3 := congrArg List.length hn3
                  have e5 := congrArg List.length hn5
                  refine goodN_padd (by omega) ?_ ?_
                  · intro j hj
                    simp only [Node.refs, Option.toList, List.mem_cons,
                      List.mem_singleton] at hj
                    rcases hj with rfl | rfl | hj
                    · exact hexpr
                    · omega
                    · cases hj
                  · intro w
                    apply hp6
                    rw [hn5]
                    apply hp4
                    rw [hn3, hn2, hn1]
                    exact w
                · trivial
                · trivial
            · trivial
            · trivial
          · rename_i st3 hpc3
            have hn3 : st3.nodes = st2.nodes := by
              have hh := pcatch_snd_nodes tk [TT.Colon] st2
              rw [hpc3] at hh
              exact hh
            split
            · trivial
            · rename_i u5 st5 hpc5
              have hn5 : st5.nodes = st3.nodes := by
                have hh := pcatch_snd_nodes tk [TT.Equal] st3
                rw [hpc5] at hh
                exact hh
              split
              · rename_i expr st6 hex
                have hgE := ihExpr tk st5
                rw [hex] at hgE
                obtain ⟨hm6, hexpr, hp6⟩ := hgE
                refine goodN_padd ?_ ?_ ?_
                · have e1 := congrArg List.length hn1
                  have e2 := congrArg List.length hn2
                  have e3 := congrArg List.length hn3
                  have e5 := congrArg List.length hn5
                  omega
                · intro j hj
                  simp only [Node.refs, Option.toList, List.mem_singleton] at hj
                  subst hj
                  exact hexpr
                · intro w
                  apply hp6
                  rw [hn5, hn3, hn2, hn1]
                  exact w
              · trivial
              · trivial
      · rename_i st1 hpc1
        have hn1 : st1.nodes = st.nodes := by
          have hh := pcatch_snd_nodes tk [TT.Let, TT.Mut] st
          rw [hpc1] at hh
          exact hh
        exact goodN_eqstep hn1 (ihExpr tk st1)
    -- expressionP
    · intro tk st
      simp only [expressionP]
      exact ihFn tk st
    -- functionP
    · intro tk st
      simp only [functionP]
      split
      · rename_i u1 st1 hpc1
        have hn1 : st1.nodes = st.nodes := by
          have hh := pcatch_snd_nodes tk [TT.Fn] st
          rw [hpc1] at hh
          exact hh
        split
        · trivial
        · rename_i u2 st2 hpc2
          have hn2 : st2.nodes = st1.nodes := by
            have hh := pcatch_snd_nodes tk [TT.LParen] st1
            rw [hpc2] at hh
            exact hh
          split
          · rename_i args st3 hargs
            have hgA := ihArgs tk [] st2 (by intro p hp j hj; cases hp)
            rw [hargs] at hgA
            obtain ⟨hm3, hargsB, hp3⟩ := hgA
            have e1 := congrArg List.length hn1
            have e2 := congrArg List.length hn2
            split
            · rename_i u4 st4 hpc4
              have hn4 : st4.nodes = st3.nodes := by
                have hh := pcatch_snd_nodes tk [TT.Colon] st3
                rw [hpc4] at hh
                exact hh
              have e4 := congrArg List.length hn4
              split
              · rename_i ret st5 hty
                have hgT := ihTyE tk st4
                rw [hty] at hgT
                obtain ⟨hm5, hret, hp5⟩ := hgT
                split
                · rename_i u6 st6 hpc6
                  have hn6 : st6.nodes = st5.nodes := by
                    have hh := pcatch_snd_nodes tk [TT.EqualGreater] st5
                    rw [hpc6] at hh
                    exact hh
                  have e6 := congrArg List.length hn6
                  split
                  · rename_i expr st7 hex
                    have hgE := ihExpr tk st6
                    rw [hex] at hgE
                    obtain ⟨hm7, hexpr, hp7⟩ := hgE
                    refine goodN_padd (by omega) ?_ ?_
                    · intro j hj
                      simp only [Node.refs] at hj
                      rcases List.mem_append.mp hj with hj | hj
                      · rcases List.mem_append.mp hj with hj | hj
                        · rw [List.mem_filterMap] at hj
                          obtain ⟨p, hp, hpj⟩ := hj
                          have := hargsB p hp j hpj
                          omega
                        · simp only [Option.toList, List.mem_singleton] at hj
                          subst hj
                          omega
                      · rcases List.mem_singleton.mp hj with rfl
                        exact hexpr
                    · intro w
                      apply hp7
                      rw [hn6]
                      apply hp5
                      rw [hn4]
                      apply hp3
                      rw [hn2, hn1]
                      exact w
                  · trivial
                  · trivial
                · rename_i st6 hpc6
                  have hn6 : st6.nodes = st5.nodes := by
                    have hh := pcatch_snd_nodes tk [TT.EqualGreater] st5
                    rw [hpc6] at hh
                    exact hh
                  have e6 := congrArg List.length hn6
                  split
                  · trivial
                  · rename_i t hgt
                    split
                    · rename_i expr st7 hex
                      have hgE := ihExpr tk
                        { st6 with report :=
                            (st6.report.error ("expected '=>', found " ++ tokenDisp t)) }
                      rw [hex] at hgE
                      obtain ⟨hm7, hexpr, hp7⟩ := hgE
                      have e7 : ({ st6 with report :=
                          (st6.report.error ("expected '=>', found " ++ tokenDisp t)) } :
                          PSt).nodes.length = st6.nodes.length := rfl
                      refine goodN_padd (by omega) ?_ ?_
                      · intro j hj
                        simp only [Node.refs] at hj
                        rcases List.mem_append.mp hj with hj | hj
                        · rcases List.mem_append.mp hj with hj | hj
                          · rw [List.mem_filterMap] at hj
                            obtain ⟨p, hp, hpj⟩ := hj
                            have := hargsB p hp j hpj
                            omega
                          · simp only [Option.toList, List.mem_singleton] at hj
                            subst hj
                            omega
                        · rcases List.mem_singleton.mp hj with rfl
                          exact hexpr
                      · intro w
                        apply hp7
                        show NodesWF st6.nodes
                        rw [hn6]
                        apply hp5
                        rw [hn4]
                        apply hp3
                        rw [hn2, hn1]
                        exact w
                    · trivial
                    · trivial
              · trivial
              · trivial
            · rename_i st4 hpc4
              have hn4 : st4.nodes = st3.nodes := by
                have hh := pcatch_snd_nodes tk [TT.Colon] st3
                rw [hpc4] at hh
                exact hh
              have e4 := congrArg List.length hn4
              split
              · rename_i u6 st6 hpc6
                have hn6 : st6.nodes = st4.nodes := by
                  have hh := pcatch_snd_nodes tk [TT.EqualGreater] st4
                  rw [hpc6] at hh
                  exact hh
                have e6 := congrArg List.length hn6
                split
                · rename_i expr st7 hex
                  have hgE := ihExpr tk st6
                  rw [hex] at hgE
                  obtain ⟨hm7, hexpr, hp7⟩ := hgE
                  refine goodN_padd (by omega) ?_ ?_
                  · intro j hj
                    simp only [Node.refs] at hj
                    rcases List.mem_append.mp hj with hj | hj
                    · rcases List.mem_append.mp hj with hj | hj
                      · rw [List.mem_filterMap] at hj
                        obtain ⟨p, hp, hpj⟩ := hj
                        have := hargsB p hp j hpj
                        omega
                      · simp only [Option.toList] at hj
                        cases hj
                    · rcases List.mem_singleton.mp hj with rfl
                      exact hexpr
                  · intro w
                    apply hp7
                    rw [hn6, hn4]
                    apply hp3
                    rw [hn2, hn1]
                    exact w
                · trivial
                · trivial
              · rename_i st6 hpc6
                have hn6 : st6.nodes = st4.nodes := by
                  have hh := pcatch_snd_nodes tk [TT.EqualGreater] st4
                  rw [hpc6] at hh
                  exact hh
                have e6 := congrArg List.length hn6
                split
                · trivial
                · rename_i t hgt
                  split
                  · rename_i expr st7 hex
                    have hgE := ihExpr tk
                      { st6 with report :=
                          (st6.report.error ("expected '=>', found " ++ tokenDisp t)) }
                    rw [hex] at hgE
                    obtain ⟨hm7, hexpr, hp7⟩ := hgE
                    have e7 : ({ st6 with report :=
                        (st6.report.error ("expected '=>', found " ++ tokenDisp t)) } :
                        PSt).nodes.length = st6.nodes.length := rfl
                    refine goodN_padd (by omega) ?_ ?_
                    · intro j hj
                      simp only [Node.refs] at hj
                      rcases List.mem_append.mp hj with hj | hj
                      · rcases List.mem_append.mp hj with hj | hj
                        · rw [List.mem_filterMap] at hj
                          obtain ⟨p, hp, hpj⟩ := hj
                          have := hargsB p hp j hpj
                          omega
                        · simp only [Option.toList] at hj
                          cases hj
                      · rcases List.mem_singleton.mp hj with rfl
                        exact hexpr
                    · intro w
                      apply hp7
                      show NodesWF st6.nodes
                      rw [hn6, hn4]
                      apply hp3
                      rw [hn2, hn1]
                      exact w
                  · trivial
                  · trivial
          · trivial
          · trivial
      · rename_i st1 hpc1
        have hn1 : st1.nodes = st.nodes := by
          have hh := pcatch_snd_nodes tk [TT.Fn] st
          rw [hpc1] at hh
          exact hh
        exact goodN_eqstep hn1 (ihJump tk st1)
    -- fnArgsLoop
    · intro tk acc st hacc
      simp only [fnArgsLoop]
      split
      · rename_i u1 st1 hpc1
        have hn1 : st1.nodes = st.nodes := by
          have hh := pcatch_snd_nodes tk [TT.RParen] st
          rw [hpc1] at hh
          exact hh
        have e1 := congrArg List.length hn1
        refine ⟨by omega, ?_, fun w => by rw [hn1]; exact w⟩
        intro p hp j hj
        have := hacc p hp j hj
        omega
      · rename_i st1 hpc1
        have hn1 : st1.nodes = st.nodes := by
          have hh := pcatch_snd_nodes tk [TT.RParen] st
          rw [hpc1] at hh
          exact hh
        have e1 := congrArg List.length hn1
        split
        · trivial
        · rename_i name st2 hpc2
          have hn2 : st2.nodes = st1.nodes := by
            have hh := pcatch_snd_nodes tk [TT.Identifier] st1
            rw [hpc2] at hh
            exact hh
          have e2 := congrArg List.length hn2
          split
          · trivial
          · rename_i u3 hgt
            split
            · rename_i u4 st3 hpc3
              have hn3 : st3.nodes = st2.nodes := by
                have hh := pcatch_snd_nodes tk [TT.Colon] st2
                rw [hpc3] at hh
                exact hh
              have e3 := congrArg List.length hn3
              split
              · rename_i ann st4 hty
                have hgT := ihTyE tk st3
                rw [hty] at hgT
                obtain ⟨hm4, hann, hp4⟩ := hgT
                have hn5 : ((pcatch tk [TT.Comma] st4).2).nodes = st4.nodes :=
                  pcatch_snd_nodes tk [TT.Comma] st4
                have e5 := congrArg List.length hn5
                refine goodA_step
                  (show st.nodes.length ≤ ((pcatch tk [TT.Comma] st4).2).nodes.length
                    by omega)
                  (fun w => by rw [hn5]; exact hp4 (by rw [hn3, hn2, hn1]; exact w))
                  (ihArgs tk (acc ++ [(name, some ann)]) _ ?_)
                intro p hp j hj
                rcases List.mem_append.mp hp with hp | hp
                · have := hacc p hp j hj
                  omega
                · rcases List.mem_singleton.mp hp with rfl
                  injection hj with hj
                  subst hj
                  omega
              · trivial
              · trivial
            · rename_i st3 hpc3
              have hn3 : st3.nodes = st2.nodes := by
                have hh := pcatch_snd_nodes tk [TT.Colon] st2
                rw [hpc3] at hh
                exact hh
              have e3 := congrArg List.length hn3
              have hn5 : ((pcatch tk [TT.Comma] st3).2).nodes = st3.nodes :=
                pcatch_snd_nodes tk [TT.Comma] st3
              have e5 := congrArg List.length hn5
              refine goodA_step
                (show st.nodes.length ≤ ((pcatch tk [TT.Comma] st3).2).nodes.length
                  by omega)
                (fun w => by rw [hn5, hn3, hn2, hn1]; exact w)
                (ihArgs tk (acc ++ [(name, none)]) _ ?_)
              intro p hp j hj
              rcases List.mem_append.mp hp with hp | hp
              · have := hacc p hp j hj
                omega
              · rcases List.mem_singleton.mp hp with rfl
                cases hj
    -- jumpP
    · intro tk st
      simp only [jumpP]
      split
      · rename_i op st1 hpc1
        have hn1 : st1.nodes = st.nodes := by
          have hh := pcatch_snd_nodes tk [TT.If] st
          rw [hpc1] at hh
          exact hh
        have e1 := congrArg List.length hn1
        split
        · rename_i cond st2 hcq
          have hgQ := ihEq tk st1
          rw [hcq] at hgQ
          obtain ⟨hm2, hcond, hp2⟩ := hgQ
          split
          · rename_i thn st3 hex
            have hgE := ihExpr tk st2
            rw [hex] at hgE
            obtain ⟨hm3, hthn, hp3⟩ := hgE
            split
            · rename_i u4 st4 hpc4
              have hn4 : st4.nodes = st3.nodes := by
                have hh := pcatch_snd_nodes tk [TT.Else] st3
                rw [hpc4] at hh
                exact hh
              have e4 := congrArg List.length hn4
              split
              · rename_i els st5 hex2
                have hgE2 := ihExpr tk st4
                rw [hex2] at hgE2
                obtain ⟨hm5, hels, hp5⟩ := hgE2
                refine goodN_padd (by omega) ?_ ?_
                · intro j hj
                  simp only [Node.refs, Option.toList, List.mem_cons,
                    List.mem_singleton] at hj
                  rcases hj with rfl | rfl | rfl | hj
                  · omega
                  · omega
                  · exact hels
                  · cases hj
                · intro w
                  apply hp5
                  rw [hn4]
                  apply hp3
                  apply hp2
                  rw [hn1]
                  exact w
              · trivial
              · trivial
            · rename_i st4 hpc4
              have hn4 : st4.nodes = st3.nodes := by
                have hh := pcatch_snd_nodes tk [TT.Else] st3
                rw [hpc4] at hh
                exact hh
              have e4 := congrArg List.length hn4
              refine goodN_padd (by omega) ?_ ?_
              · intro j hj
                simp only [Node.refs, Option.toList, List.mem_cons,
                  List.mem_singleton] at hj
                rcases hj with rfl | rfl | hj
                · omega
                · omega
                · cases hj
              · intro w
                rw [hn4]
                apply hp3
                apply hp2
                rw [hn1]
                exact w
          · trivial
          · trivial
        · trivial
        · trivial
      · rename_i st1 hpc1
        have hn1 : st1.nodes = st.nodes := by
          have hh := pcatch_snd_nodes tk [TT.If] st
          rw [hpc1] at hh
          exact hh
        exact goodN_eqstep hn1 (ihEq tk st1)
    -- equalityP
    · intro tk st
      simp only [equalityP]
      split
      · rename_i left st1 ht
        have hg := ihTerm tk st
        rw [ht] at hg
        obtain ⟨hm, hleft, hp⟩ := hg
        exact goodN_step hm hp (ihEqL tk left st1 hleft)
      · trivial
      · trivial
    -- eqLoop
    · intro tk left st hleft
      simp only [eqLoop]
      split
      · rename_i st1 hpc
        have hn1 : st1.nodes = st.nodes := by
          have hh := pcatch_snd_nodes tk
            [TT.EqualEqual, TT.BangEqual, TT.Lesser, TT.LesserEqual,
              TT.Greater, TT.GreaterEqual] st
          rw [hpc] at hh
          exact hh
        refine ⟨le_of_eq (congrArg List.length hn1).symm, ?_,
          fun w => by rw [hn1]; exact w⟩
        rw [hn1]
        exact hleft
      · rename_i op st1 hpc
        have hn1 : st1.nodes = st.nodes := by
          have hh := pcatch_snd_nodes tk
            [TT.EqualEqual, TT.BangEqual, TT.Lesser, TT.LesserEqual,
              TT.Greater, TT.GreaterEqual] st
          rw [hpc] at hh
          exact hh
        have e1 := congrArg List.length hn1
        split
        · rename_i right st2 ht
          have hg := ihTerm tk st1
          rw [ht] at hg
          obtain ⟨hm2, hright, hp2⟩ := hg
          have hrec := ihEqL tk (padd st2 (.binary left op right)).1
            (padd st2 (.binary left op right)).2
            (show st2.nodes.length < (st2.nodes ++ [Node.binary left op right]).length
              by simp)
          refine goodN_step ?_ ?_ hrec
          · show st.nodes.length ≤ (st2.nodes ++ [Node.binary left op right]).length
            simp only [List.length_append, List.length_cons, List.length_nil]
            omega
          · intro w
            show NodesWF (st2.nodes ++ [Node.binary left op right])
            refine wf_append (hp2 (by rw [hn1]; exact w)) ?_
            intro j hj
            simp only [Node.refs, List.mem_cons, List.mem_singleton] at hj
            rcases hj with rfl | rfl | hj
            · omega
            · exact hright
            · cases hj
        · trivial
        · trivial
    -- termP
    · intro tk st
      simp only [termP]
      split
      · rename_i left st1 ht
        have hg := ihFac tk st
        rw [ht] at hg
        obtain ⟨hm, hleft, hp⟩ := hg
        exact goodN_step hm hp (ihTermL tk left st1 hleft)
      · trivial
      · trivial
    -- termLoop
    · intro tk left st hleft
      simp only [termLoop]
      split
      · rename_i st1 hpc
        have hn1 : st1.nodes = st.nodes := by
          have hh := pcatch_snd_nodes tk [TT.Plus, TT.Minus] st
          rw [hpc] at hh
          exact hh
        refine ⟨le_of_eq (congrArg List.length hn1).symm, ?_,
          fun w => by rw [hn1]; exact w⟩
        rw [hn1]
        exact hleft
      · rename_i op st1 hpc
        have hn1 : st1.nodes = st.nodes := by
          have hh := pcatch_snd_nodes tk [TT.Plus, TT.Minus] st
          rw [hpc] at hh
          exact hh
        have e1 := congrArg List.length hn1
        split
        · rename_i right st2 ht
          have hg := ihFac tk st1
          rw [ht] at hg
          obtain ⟨hm2, hright, hp2⟩ := hg
          have hrec := ihTermL tk (padd st2 (.binary left op right)).1
            (padd st2 (.binary left op right)).2
            (show st2.nodes.length < (st2.nodes ++ [Node.binary left op right]).length
              by simp)
          refine goodN_step ?_ ?_ hrec
          · show st.nodes.length ≤ (st2.nodes ++ [Node.binary left op right]).length
            simp only [List.length_append, List.length_cons, List.length_nil]
            omega
          · intro w
            show NodesWF (st2.nodes ++ [Node.binary left op right])
            refine wf_append (hp2 (by rw [hn1]; exact w)) ?_
            intro j hj
            simp only [Node.refs, List.mem_cons, List.mem_singleton] at hj
            rcases hj with rfl | rfl | hj
            · omega
            · exact hright
            · cases hj
        · trivial
        · trivial
    -- factorP
    · intro tk st
      simp only [factorP]
      split
      · rename_i left st1 ht
        have hg := ihUn tk st
        rw [ht] at hg
        obtain ⟨hm, hleft, hp⟩ := hg
        exact goodN_step hm hp (ihFacL tk left st1 hleft)
      · trivial
      · trivial
    -- factorLoop
    · intro tk left st hleft
      simp only [factorLoop]
      split
      · rename_i st1 hpc
        have hn1 : st1.nodes = st.nodes := by
          have hh := pcatch_snd_nodes tk [TT.Star, TT.Slash] st
          rw [hpc] at hh
          exact hh
        refine ⟨le_of_eq (congrArg List.length hn1).symm, ?_,
          fun w => by rw [hn1]; exact w⟩
        rw [hn1]
        exact hleft
      · rename_i op st1 hpc
        have hn1 : st1.nodes = st.nodes := by
          have hh := pcatch_snd_nodes tk [TT.Star, TT.Slash] st
          rw [hpc] at hh
          exact hh
        have e1 := congrArg List.length hn1
        split
        · rename_i right st2 ht
          have hg := ihUn tk st1
          rw [ht] at hg
          obtain ⟨hm2, hright, hp2⟩ := hg
          have hrec := ihFacL tk (padd st2 (.binary left op right)).1
            (padd st2 (.binary left op right)).2
            (show st2.nodes.length < (st2.nodes ++ [Node.binary left op right]).length
              by simp)
          refine goodN_step ?_ ?_ hrec
          · show st.nodes.length ≤ (st2.nodes ++ [Node.binary left op right]).length
            simp only [List.length_append, List.length_cons, List.length_nil]
            omega
          · intro w
            show NodesWF (st2.nodes ++ [Node.binary left op right])
            refine wf_append (hp2 (by rw [hn1]; exact w)) ?_
            intro j hj
            simp only [Node.refs, List.mem_cons, List.mem_singleton] at hj
            rcases hj with rfl | rfl | hj
            · omega
            · exact hright
            · cases hj
        · trivial
        · trivial
    -- unaryP
    · intro tk st
      simp only [unaryP]
      split
      · rename_i op st1 hpc
        have hn1 : st1.nodes = st.nodes := by
          have hh := pcatch_snd_nodes tk [TT.Minus, TT.Bang] st
          rw [hpc] at hh
          exact hh
        have e1 := congrArg List.length hn1
        split
        · rename_i right st2 hu
          have hg := ihUn tk st1
          rw [hu] at hg
          obtain ⟨hm2, hright, hp2⟩ := hg
          refine goodN_padd (by omega) ?_ ?_
          · intro j hj
            simp only [Node.refs, List.mem_singleton] at hj
            subst hj
            exact hright
          · intro w
            exact hp2 (by rw [hn1]; exact w)
        · trivial
        · trivial
      · rename_i st1 hpc
        have hn1 : st1.nodes = st.nodes := by
          have hh := pcatch_snd_nodes tk [TT.Minus, TT.Bang] st
          rw [hpc] at hh
          exact hh
        exact goodN_eqstep hn1 (ihCall tk st1)
    -- callP
    · intro tk st
      simp only [callP]
      split
      · rename_i expr st1 hpr
        have hg := ihPrim tk st
        rw [hpr] at hg
        obtain ⟨hm, hexpr, hp⟩ := hg
        exact goodN_step hm hp (ihCallL tk expr st1 hexpr)
      · trivial
      · trivial
    -- callLoop
    · intro tk expr st hexpr
      simp only [callLoop]
      split
      · rename_i st1 hpc
        have hn1 : st1.nodes = st.nodes := by
          have hh := pcatch_snd_nodes tk [TT.LParen] st
          rw [hpc] at hh
          exact hh
        refine ⟨le_of_eq (congrArg List.length hn1).symm, ?_,
          fun w => by rw [hn1]; exact w⟩
        rw [hn1]
        exact hexpr
      · rename_i u1 st1 hpc
        have hn1 : st1.nodes = st.nodes := by
          have hh := pcatch_snd_nodes tk [TT.LParen] st
          rw [hpc] at hh
          exact hh
        have e1 := congrArg List.length hn1
        split
        · trivial
        · rename_i t hgt
          split
          · split
            · trivial
            · rename_i op st2 hpc2
              have hn2 : st2.nodes = st1.nodes := by
                have hh := pcatch_snd_nodes tk [TT.RParen] st1
                rw [hpc2] at hh
                exact hh
              have e2 := congrArg List.length hn2
              have hrec := ihCallL tk (padd st2 (.call op expr [])).1
                (padd st2 (.call op expr [])).2
                (show st2.nodes.length < (st2.nodes ++ [Node.call op expr []]).length
                  by simp)
              refine goodN_step ?_ ?_ hrec
              · show st.nodes.length ≤ (st2.nodes ++ [Node.call op expr []]).length
                simp only [List.length_append, List.length_cons, List.length_nil]
                omega
              · intro w
                show NodesWF (st2.nodes ++ [Node.call op expr []])
                refine wf_append (by rw [hn2, hn1]; exact w) ?_
                intro j hj
                simp only [Node.refs, List.mem_singleton] at hj
                subst hj
                omega
          · split
            · rename_i args st2 hca
              have hgC := ihCArgs tk [] st1 (by intro i hi; cases hi)
              rw [hca] at hgC
              obtain ⟨hm2, hargs, hp2⟩ := hgC
              split
              · trivial
              · rename_i op st3 hpc3
                have hn3 : st3.nodes = st2.nodes := by
                  have hh := pcatch_snd_nodes tk [TT.RParen] st2
                  rw [hpc3] at hh
                  exact hh
                have e3 := congrArg List.length hn3
                have hrec := ihCallL tk (padd st3 (.call op expr args)).1
                  (padd st3 (.call op expr args)).2
                  (show st3.nodes.length <
                      (st3.nodes ++ [Node.call op expr args]).length by simp)
                refine goodN_step ?_ ?_ hrec
                · show st.nodes.length ≤ (st3.nodes ++ [Node.call op expr args]).length
                  simp only [List.length_append, List.length_cons, List.length_nil]
                  omega
                · intro w
                  show NodesWF (st3.nodes ++ [Node.call op expr args])
                  refine wf_append
                    (by rw [hn3]; exact hp2 (by rw [hn1]; exact w)) ?_
                  intro j hj
                  simp only [Node.refs, List.mem_cons] at hj
                  rcases hj with rfl | hj
                  · omega
                  · have := hargs j hj
                    omega
            · trivial
            · trivial
    -- callArgsLoop
    · intro tk acc st hacc
      simp only [callArgsLoop]
      split
      · rename_i a st1 hex
        have hg := ihExpr tk st
        rw [hex] at hg
        obtain ⟨hm, ha, hp⟩ := hg
        split
        · rename_i st2 hpc
          have hn2 : st2.nodes = st1.nodes := by
            have hh := pcatch_snd_nodes tk [TT.Comma] st1
            rw [hpc] at hh
            exact hh
          have e2 := congrArg List.length hn2
          refine ⟨by omega, ?_, fun w => by rw [hn2]; exact hp w⟩
          intro j hj
          rcases List.mem_append.mp hj with hj | hj
          · have := hacc j hj
            omega
          · rcases List.mem_singleton.mp hj with rfl
            omega
        · rename_i u st2 hpc
          have hn2 : st2.nodes = st1.nodes := by
            have hh := pcatch_snd_nodes tk [TT.Comma] st1
            rw [hpc] at hh
            exact hh
          have e2 := congrArg List.length hn2
          refine goodL_step (show st.nodes.length ≤ st2.nodes.length by omega)
            (fun w => by rw [hn2]; exact hp w)
            (ihCArgs tk (acc ++ [a]) st2 ?_)
          intro j hj
          rcases List.mem_append.mp hj with hj | hj
          · have := hacc j hj
            omega
          · rcases List.mem_singleton.mp hj with rfl
            omega
      · trivial
      · trivial
    -- primaryP
    · intro tk st
      simp only [primaryP]
      split
      · trivial
      · rename_i t hgt
        split
        · exact goodN_padd (le_refl _) (by intro j hj; cases hj) (fun w => w)
        · exact goodN_padd (le_refl _) (by intro j hj; cases hj) (fun w => w)
        · exact goodN_padd (le_refl _) (by intro j hj; cases hj) (fun w => w)
        · exact goodN_padd (le_refl _) (by intro j hj; cases hj) (fun w => w)
        · exact goodN_padd (le_refl _) (by intro j hj; cases hj) (fun w => w)
        · split
          · rename_i expr st2 hex
            have hgE := ihExpr tk { st with pos := st.pos + 1 }
            rw [hex] at hgE
            obtain ⟨hm, hexpr, hp⟩ := hgE
            rcases pcatch_cases tk [TT.RParen] st2 with hpc | ⟨u, _, _, hpc⟩ <;>
              rw [hpc]
            · exact goodN_padd hm (by intro j hj; cases hj) hp
            · refine goodN_padd hm ?_ hp
              intro j hj
              simp only [Node.refs, List.mem_singleton] at hj
              subst hj
              exact hexpr
          · trivial
          · trivial
        · exact goodN_eqstep rfl
            (ihBlk tk (fun kind => kind = TT.RBrace) { st with pos := st.pos + 1 })
        · exact goodN_padd (le_refl _) (by intro j hj; cases hj) (fun w => w)
    -- typeExpressionP
    · intro tk st
      simp only [typeExpressionP]
      exact ihTyP tk st
    -- typePrimaryP
    · intro tk st
      simp only [typePrimaryP]
      split
      · trivial
      · rename_i t hgt
        split
        · exact goodN_padd (le_refl _) (by intro j hj; cases hj) (fun w => w)
        · exact goodN_padd (le_refl _) (by intro j hj; cases hj) (fun w => w)

/-! ## Claim theorems -/

/-- C8: for every source on which tokenize succeeds, the token sequence is
non-empty and ends with the end-of-input sentinel; and for a source of
whitespace only, the sequence is exactly one end-of-input token and the
result is success. -/
theorem C8_spec :
    (∀ (src : List Char) (ts : TokenStream),
      tokenize src = PRes.ok (Except.ok ts) →
      ts.tokens ≠ [] ∧ ts.tokens.getLast? = some ⟨TT.Eof, (0, 0)⟩) ∧
    (∀ src : List Char, (∀ c ∈ src, rustIsWhitespace c = true) →
      tokenize src = PRes.ok (Except.ok ⟨src, [⟨TT.Eof, (0, 0)⟩]⟩)) := by
  constructor
  · intro src ts h
    obtain ⟨st, htr⟩ := tokenize_ok_inv h
    rw [tokenize_eq src st htr] at h
    obtain ⟨st0, hloop, hst⟩ := tokRun_ok htr
    subst hst
    by_cases hok : (st0.eof).report.ok = true
    · rw [if_pos hok] at h
      injection h with h2
      injection h2 with h3
      subst h3
      rw [eof_tokens]
      constructor
      · simp
      · simp [List.getLast?_concat]
    · rw [if_neg hok] at h
      injection h with h2
      exact absurd h2 (by simp)
  · intro src hws
    obtain ⟨st2, hloop, htk, hrp⟩ :=
      tokLoop_ws src src.length src Tokenize.new (le_refl _) hws
    have htr : tokRun src = PRes.ok st2.eof := by
      unfold tokRun
      rw [hloop]
    rw [tokenize_eq src st2.eof htr]
    have hok : (st2.eof).report.ok = true := by
      rw [eof_report, hrp]
      rfl
    rw [if_pos hok, eof_tokens, htk]
    rfl

/-- C8 witness: the all-whitespace source of three blanks tokenizes to
exactly one end-of-input token. -/
theorem C8_witness :
    tokenize "   ".toList =
      PRes.ok (Except.ok ⟨"   ".toList, [⟨TT.Eof, (0, 0)⟩]⟩) :=
  C8_spec.2 "   ".toList (by decide)

/-- C5 counterexample: the claim says tokenize returns a TokenStream
exactly when zero errors were recorded, and otherwise only the report, for
every source; but on the one-character source é the scan records no error
and still returns neither: é is alphabetic, and the identifier branch's
keyword check slices the source by byte at the character-counted span 0..1,
which ends inside the two-byte character — a Rust panic (token.rs:201). -/
theorem C5_counterexample :
    rustIsAlphabetic (Char.ofNat 0xE9) = true ∧
    strSlice [Char.ofNat 0xE9] 0 1 = none ∧
    tokenize [Char.ofNat 0xE9] = PRes.abort := by
  refine ⟨by decide, by decide, by decide⟩

/-- C5 (amended): on every source whose scan completes without panicking
(the identifier branch's keyword byte-slice can panic on identifier text
that is not all single-byte), tokenize returns a TokenStream exactly when
the scan recorded zero errors, and otherwise only the report; a pass over
`"#a$"` shows scanning continuing past the first bad character, recording
one error per unrecognized character, each naming the character and its
offset. -/
theorem C5_amended :
    (∀ (src : List Char) (st : Tokenize), tokRun src = PRes.ok st →
      ((∃ ts, tokenize src = PRes.ok (Except.ok ts)) ↔ st.report.errors = [])) ∧
    tokenize "#a$".toList =
      PRes.ok (Except.error ⟨true,
        ["unknown character '#' at 0", "unknown character '$' at 2"], []⟩) := by
  constructor
  · intro src st htr
    obtain ⟨st0, hloop, hst⟩ := tokRun_ok htr
    subst hst
    have hs : (st0.eof).report.fault = !(st0.eof).report.errors.isEmpty := by
      rw [eof_report]
      exact tokLoop_sync src src.length src Tokenize.new rfl st0 hloop
    constructor
    · rintro ⟨ts, h⟩
      rw [tokenize_eq src st0.eof htr] at h
      by_cases hok : (st0.eof).report.ok = true
      · have hfault : (st0.eof).report.fault = false := by
          simpa [Report.ok] using hok
        rw [hs] at hfault
        simpa using hfault
      · rw [if_neg hok] at h
        injection h with h2
        exact absurd h2 (by simp)
    · intro he
      have hfault : (st0.eof).report.fault = false := by
        rw [hs, he]
        simp
      refine ⟨⟨src, (st0.eof).tokens⟩, ?_⟩
      rw [tokenize_eq src st0.eof htr, if_pos (by simp [Report.ok, hfault])]
  · decide

/-- C5 witness: the success-iff-no-errors equivalence applied at the
concrete source `"+"`, whose scan completes with no error recorded. -/
theorem C5_witness :
    (Tokenize.mk [⟨TT.Plus, (0, 1)⟩, ⟨TT.Eof, (0, 0)⟩] Report.new 0 1).report.errors
      = [] :=
  (C5_amended.1 "+".toList
      (Tokenize.mk [⟨TT.Plus, (0, 1)⟩, ⟨TT.Eof, (0, 0)⟩] Report.new 0 1)
      (by decide)).mp
    ⟨⟨"+".toList, [⟨TT.Plus, (0, 1)⟩, ⟨TT.Eof, (0, 0)⟩]⟩, by decide⟩


/-- C7 counterexample: the claim says every source containing one of the
characters !, <, > yields an unknown-character error; but the source `"=>"`
contains the character > and tokenizes successfully, because the scanner's
one-character lookahead after = consumes the > as part of the arrow token. -/
theorem C7_counterexample :
    ('>' ∈ "=>".toList) ∧
    tokenize "=>".toList =
      PRes.ok (Except.ok
        ⟨"=>".toList, [⟨TT.EqualGreater, (0, 2)⟩, ⟨TT.Eof, (0, 0)⟩]⟩) := by
  constructor
  · decide
  · decide

/-- C7 (amended): a source containing the character ! or the character <
never yields a TokenStream: either the scan reaches the character and
records an unknown-character error, so tokenize returns only a report, or
the identifier branch's keyword byte-slice panics first.  A character >
escapes this only when it is consumed as the second character of an `=>`
arrow.  And in every TokenStream tokenize produces, the kinds Bang,
BangEqual, Lesser, LesserEqual, Greater and GreaterEqual never occur, even
though the parser's equality and unary productions accept them. -/
theorem C7_amended :
    (∀ src : List Char, ('!' ∈ src ∨ '<' ∈ src) →
      ∀ ts : TokenStream, tokenize src ≠ PRes.ok (Except.ok ts)) ∧
    (∀ (src : List Char) (ts : TokenStream),
      tokenize src = PRes.ok (Except.ok ts) →
      ∀ t ∈ ts.tokens, t.kind ∉ ([TT.Bang, TT.BangEqual, TT.Lesser,
        TT.LesserEqual, TT.Greater, TT.GreaterEqual] : List TT)) := by
  constructor
  · intro src hm ts h
    obtain ⟨st, htr⟩ := tokenize_ok_inv h
    obtain ⟨st0, hloop, hst⟩ := tokRun_ok htr
    subst hst
    have hfault : (st0.eof).report.fault = true := by
      rw [eof_report]
      rcases hm with hmem | hmem
      · exact tokLoop_bad src '!' (Or.inl rfl) src.length src Tokenize.new
          (le_refl _) hmem st0 hloop
      · exact tokLoop_bad src '<' (Or.inr rfl) src.length src Tokenize.new
          (le_refl _) hmem st0 hloop
    rw [tokenize_eq src st0.eof htr] at h
    rw [if_neg (by simp [Report.ok, hfault])] at h
    injection h with h2
    exact absurd h2 (by simp)
  · intro src ts h t ht
    obtain ⟨st, htr⟩ := tokenize_ok_inv h
    obtain ⟨st0, hloop, hst⟩ := tokRun_ok htr
    subst hst
    rw [tokenize_eq src st0.eof htr] at h
    by_cases hok : (st0.eof).report.ok = true
    · rw [if_pos hok] at h
      injection h with h2
      injection h2 with h3
      subst h3
      rw [eof_tokens] at ht
      rcases List.mem_append.mp ht with h2 | h2
      · exact tokLoop_kinds src src.length src Tokenize.new
          (by intro u hu; cases hu) st0 hloop t h2
      · rcases List.mem_singleton.mp h2 with rfl
        decide
    · rw [if_neg hok] at h
      injection h with h2
      exact absurd h2 (by simp)

/-- C7 witness: the amended kinds half applied at the concrete source
`"="`, checking the Equal token it produces. -/
theorem C7_witness :
    (⟨TT.Equal, (0, 1)⟩ : Token).kind ∉ ([TT.Bang, TT.BangEqual, TT.Lesser,
      TT.LesserEqual, TT.Greater, TT.GreaterEqual] : List TT) :=
  C7_amended.2 "=".toList
    ⟨"=".toList, [⟨TT.Equal, (0, 1)⟩, ⟨TT.Eof, (0, 0)⟩]⟩
    (by decide) ⟨TT.Equal, (0, 1)⟩ (by decide)

/-- C4 counterexample: for the source consisting of a no-break space
(U+00A0, two UTF-8 bytes) followed by +, tokenize succeeds and gives the
plus token the span (1, 2) — character counts, not byte offsets.  As byte
offsets that span does not slice to the matched text "+": slicing panics
(the end falls inside the no-break space), while the matched text actually
occupies bytes 2..3. -/
theorem C4_counterexample :
    tokenize [Char.ofNat 0xA0, '+'] =
      PRes.ok (Except.ok ⟨[Char.ofNat 0xA0, '+'],
        [⟨TT.Plus, (1, 2)⟩, ⟨TT.Eof, (0, 0)⟩]⟩) ∧
    TokenStream.str_from
        ⟨[Char.ofNat 0xA0, '+'], [⟨TT.Plus, (1, 2)⟩, ⟨TT.Eof, (0, 0)⟩]⟩
        ⟨TT.Plus, (1, 2)⟩ = none ∧
    strSlice [Char.ofNat 0xA0, '+'] 2 3 = some ['+'] := by
  refine ⟨?_, ?_, ?_⟩ <;> decide

/-- C4 (amended): token spans count characters (which coincide with byte
offsets exactly when every character is single-byte): for every successful
tokenize the end-of-input token is last, carries span (0, 0) and slices to
the empty string, and for the all-ASCII example source
`"+ - * / 100 1 1.0 1. 10.00"` slicing each token's span yields exactly
the matched texts +, -, *, /, 100, 1, 1.0, 1., 10.00 and the empty
string. -/
theorem C4_amended :
    (∀ (src : List Char) (ts : TokenStream),
      tokenize src = PRes.ok (Except.ok ts) →
      ts.tokens.getLast? = some ⟨TT.Eof, (0, 0)⟩ ∧
      ts.str_from ⟨TT.Eof, (0, 0)⟩ = some []) ∧
    (∃ ts : TokenStream,
      tokenize "+ - * / 100 1 1.0 1. 10.00".toList =
        PRes.ok (Except.ok ts) ∧
      ts.tokens.map ts.str_from =
        [some "+".toList, some "-".toList, some "*".toList,
          some "/".toList, some "100".toList, some "1".toList,
          some "1.0".toList, some "1.".toList, some "10.00".toList,
          some []]) := by
  constructor
  · intro src ts h
    obtain ⟨st, htr⟩ := tokenize_ok_inv h
    obtain ⟨st0, hloop, hst⟩ := tokRun_ok htr
    subst hst
    rw [tokenize_eq src st0.eof htr] at h
    by_cases hok : (st0.eof).report.ok = true
    · rw [if_pos hok] at h
      injection h with h2
      injection h2 with h3
      subst h3
      constructor
      · rw [eof_tokens]
        simp [List.getLast?_concat]
      · exact strSlice_zero src
    · rw [if_neg hok] at h
      injection h with h2
      exact absurd h2 (by simp)
  · refine ⟨⟨"+ - * / 100 1 1.0 1. 10.00".toList,
      [⟨TT.Plus, (0, 1)⟩, ⟨TT.Minus, (2, 3)⟩, ⟨TT.Star, (4, 5)⟩,
        ⟨TT.Slash, (6, 7)⟩, ⟨TT.Integer, (8, 11)⟩, ⟨TT.Integer, (12, 13)⟩,
        ⟨TT.Float, (14, 17)⟩, ⟨TT.Float, (18, 20)⟩, ⟨TT.Float, (21, 26)⟩,
        ⟨TT.Eof, (0, 0)⟩]⟩, by decide, by decide⟩

/-- C4 witness: the universal half applied at the concrete source `"+"`. -/
theorem C4_witness :
    (TokenStream.mk "+".toList
        [⟨TT.Plus, (0, 1)⟩, ⟨TT.Eof, (0, 0)⟩]).tokens.getLast? =
        some ⟨TT.Eof, (0, 0)⟩ ∧
    (TokenStream.mk "+".toList
        [⟨TT.Plus, (0, 1)⟩, ⟨TT.Eof, (0, 0)⟩]).str_from ⟨TT.Eof, (0, 0)⟩ =
        some [] :=
  C4_amended.1 "+".toList
    (TokenStream.mk "+".toList [⟨TT.Plus, (0, 1)⟩, ⟨TT.Eof, (0, 0)⟩])
    (by decide)

/-- C6: a maximal run of digits makes one numeric literal token: a whole
source of digits is a single Integer token spanning the whole run (the span
ends are stored through the scanner's `as u32` casts), digits-dot-digits
(the second run possibly empty) is a single Float token spanning the whole
literal, and tokenizing `"1 10 100 1. 1.0 100.000"` yields kinds Integer,
Integer, Integer, Float, Float, Float, Eof. -/
theorem C6_spec :
    (∀ ds : List Char, ds ≠ [] → (∀ c ∈ ds, rustIsNumeric c = true) →
      tokenize ds = PRes.ok (Except.ok
        ⟨ds, [⟨TT.Integer, (0, asU32 ds.length)⟩, ⟨TT.Eof, (0, 0)⟩]⟩)) ∧
    (∀ ds ds2 : List Char, ds ≠ [] → (∀ c ∈ ds, rustIsNumeric c = true) →
      (∀ c ∈ ds2, rustIsNumeric c = true) →
      tokenize (ds ++ '.' :: ds2) = PRes.ok (Except.ok
        ⟨ds ++ '.' :: ds2,
          [⟨TT.Float, (0, asU32 (ds.length + 1 + ds2.length))⟩,
            ⟨TT.Eof, (0, 0)⟩]⟩)) ∧
    (∃ ts : TokenStream,
      tokenize "1 10 100 1. 1.0 100.000".toList = PRes.ok (Except.ok ts) ∧
      ts.tokens.map Token.kind =
        [TT.Integer, TT.Integer, TT.Integer, TT.Float, TT.Float,
          TT.Float, TT.Eof]) := by
  refine ⟨?_, ?_,
    ⟨⟨"1 10 100 1. 1.0 100.000".toList,
      [⟨TT.Integer, (0, 1)⟩, ⟨TT.Integer, (2, 4)⟩, ⟨TT.Integer, (5, 8)⟩,
        ⟨TT.Float, (9, 11)⟩, ⟨TT.Float, (12, 15)⟩, ⟨TT.Float, (16, 23)⟩,
        ⟨TT.Eof, (0, 0)⟩]⟩, by decide, by decide⟩⟩
  · intro ds hne hall
    cases ds with
    | nil => exact absurd rfl hne
    | cons c rest =>
      have hd : rustIsNumeric c = true := hall c (by simp)
      have hrest : ∀ a ∈ rest, rustIsNumeric a = true :=
        fun a ha => hall a (by simp [ha])
      unfold tokenize tokRun
      rw [List.length_cons]
      simp only [tokLoop, tokStep_int (c :: rest) c rest Tokenize.new hd hrest,
        tokLoop_nil]
      simp [Tokenize.add, stepState, Tokenize.new, Tokenize.eof, Report.ok,
        Report.new, asU32, Nat.add_comm]
  · intro ds ds2 hne hall hall2
    cases ds with
    | nil => exact absurd rfl hne
    | cons c rest =>
      have hd : rustIsNumeric c = true := hall c (by simp)
      have hrest : ∀ a ∈ rest, rustIsNumeric a = true :=
        fun a ha => hall a (by simp [ha])
      unfold tokenize tokRun
      rw [List.cons_append, List.length_cons]
      simp only [tokLoop,
        tokStep_float (c :: (rest ++ '.' :: ds2)) c rest ds2 Tokenize.new hd
          hrest hall2,
        tokLoop_nil]
      simp [Tokenize.add, stepState, Tokenize.new, Tokenize.eof, Report.ok,
        Report.new, asU32, List.length_append]
      omega

/-- C6 witness: the Integer and Float halves applied at the concrete digit
runs 7 and 2.5. -/
theorem C6_witness :
    tokenize "7".toList = PRes.ok (Except.ok
      ⟨"7".toList, [⟨TT.Integer, (0, asU32 1)⟩, ⟨TT.Eof, (0, 0)⟩]⟩) ∧
    tokenize "2.5".toList = PRes.ok (Except.ok
      ⟨"2.5".toList, [⟨TT.Float, (0, asU32 3)⟩, ⟨TT.Eof, (0, 0)⟩]⟩) := by
  constructor
  · exact C6_spec.1 "7".toList (by decide) (by decide)
  · exact C6_spec.2.1 ['2'] ['5'] (by decide) (by decide) (by decide)

/-- C9: in every Ast parse returns, every node handle stored inside the
node at arena position i refers to a position strictly less than i:
children are created before the node referencing them, so the node graph
is acyclic. -/
theorem C9_spec (fuel : Nat) (ts : TokenStream) (ast : Ast)
    (h : parse fuel ts = PRes.ok (Except.ok ast)) : NodesWF ast.nodes := by
  cases hm : moduleP ts.tokens fuel PSt.new with
  | abort =>
    unfold parse at h
    rw [hm] at h
    simp at h
  | nofuel =>
    unfold parse at h
    rw [hm] at h
    simp at h
  | ok a =>
    obtain ⟨root, st⟩ := a
    have hwf : NodesWF st.nodes := by
      have hg := (parser_inv fuel).1 ts.tokens PSt.new
      rw [hm] at hg
      exact hg.2.2 (by intro i v hi j hj; cases i <;> exact Option.noConfusion hi)
    by_cases hok : st.report.ok = true
    · have hpe : parse fuel ts =
          PRes.ok (Except.ok (Ast.mk ts.tokens st.nodes root)) := by
        unfold parse
        rw [hm]
        show (if st.report.ok = true then
            PRes.ok (Except.ok (Ast.mk ts.tokens st.nodes root))
          else PRes.ok (Except.error st.report)) =
          PRes.ok (Except.ok (Ast.mk ts.tokens st.nodes root))
        rw [if_pos hok]
      rw [hpe] at h
      injection h with h2
      injection h2 with h3
      rw [← h3]
      exact hwf
    · have hpe : parse fuel ts = PRes.ok (Except.error st.report) := by
        unfold parse
        rw [hm]
        show (if st.report.ok = true then
            PRes.ok (Except.ok (Ast.mk ts.tokens st.nodes root))
          else PRes.ok (Except.error st.report)) =
          PRes.ok (Except.error st.report)
        rw [if_neg hok]
      rw [hpe] at h
      injection h with h2
      exact absurd h2 (by simp)

/-- C9 witness: the invariant applied to the concrete tree parse builds
for `1 + 1`, whose arena holds two Integer leaves below a Binary node
below the Block and Module nodes. -/
theorem C9_witness :
    NodesWF
      (Ast.mk
        [⟨TT.Integer, (0, 1)⟩, ⟨TT.Plus, (2, 3)⟩, ⟨TT.Integer, (4, 5)⟩,
          ⟨TT.Eof, (0, 0)⟩]
        [Node.integer ⟨TT.Integer, (0, 1)⟩, Node.integer ⟨TT.Integer, (4, 5)⟩,
          Node.binary 0 ⟨TT.Plus, (2, 3)⟩ 1, Node.block [2], Node.module 3]
        4).nodes :=
  C9_spec 30
    ⟨"1 + 1".toList,
      [⟨TT.Integer, (0, 1)⟩, ⟨TT.Plus, (2, 3)⟩, ⟨TT.Integer, (4, 5)⟩,
        ⟨TT.Eof, (0, 0)⟩]⟩
    (Ast.mk
      [⟨TT.Integer, (0, 1)⟩, ⟨TT.Plus, (2, 3)⟩, ⟨TT.Integer, (4, 5)⟩,
        ⟨TT.Eof, (0, 0)⟩]
      [Node.integer ⟨TT.Integer, (0, 1)⟩, Node.integer ⟨TT.Integer, (4, 5)⟩,
        Node.binary 0 ⟨TT.Plus, (2, 3)⟩ 1, Node.block [2], Node.module 3]
      4)
    (by decide)

/-- C1 counterexample: for the source `"(1 + 1"` (unmatched `(`), the claim
says parse returns a failing report and no syntax tree; in fact the report
stays empty and parse returns a complete tree (the Error node is silently
substituted by Parser::primary without any diagnostic). -/
theorem C1_counterexample :
    tokenize "(1 + 1".toList =
      PRes.ok (Except.ok ⟨"(1 + 1".toList,
        [⟨TT.LParen, (0, 1)⟩, ⟨TT.Integer, (1, 2)⟩, ⟨TT.Plus, (3, 4)⟩,
          ⟨TT.Integer, (5, 6)⟩, ⟨TT.Eof, (0, 0)⟩]⟩) ∧
    parse 30
      ⟨"(1 + 1".toList,
        [⟨TT.LParen, (0, 1)⟩, ⟨TT.Integer, (1, 2)⟩, ⟨TT.Plus, (3, 4)⟩,
          ⟨TT.Integer, (5, 6)⟩, ⟨TT.Eof, (0, 0)⟩]⟩ =
      PRes.ok (Except.ok
        ⟨[⟨TT.LParen, (0, 1)⟩, ⟨TT.Integer, (1, 2)⟩, ⟨TT.Plus, (3, 4)⟩,
            ⟨TT.Integer, (5, 6)⟩, ⟨TT.Eof, (0, 0)⟩],
          [Node.integer ⟨TT.Integer, (1, 2)⟩, Node.integer ⟨TT.Integer, (5, 6)⟩,
            Node.binary 0 ⟨TT.Plus, (3, 4)⟩ 1, Node.error, Node.block [3],
            Node.module 4],
          5⟩) := by
  constructor
  · decide
  · decide

/-- C1 (amended): for a source with an unmatched `(` such as `"(1 + 1"`,
the parser substitutes an Error node for the unterminated group but records
no diagnostic, so parse succeeds and returns the syntax tree containing
that Error node (here at arena position 3). -/
theorem C1_amended :
    parse 30
      ⟨"(1 + 1".toList,
        [⟨TT.LParen, (0, 1)⟩, ⟨TT.Integer, (1, 2)⟩, ⟨TT.Plus, (3, 4)⟩,
          ⟨TT.Integer, (5, 6)⟩, ⟨TT.Eof, (0, 0)⟩]⟩ =
      PRes.ok (Except.ok
        ⟨[⟨TT.LParen, (0, 1)⟩, ⟨TT.Integer, (1, 2)⟩, ⟨TT.Plus, (3, 4)⟩,
            ⟨TT.Integer, (5, 6)⟩, ⟨TT.Eof, (0, 0)⟩],
          [Node.integer ⟨TT.Integer, (1, 2)⟩, Node.integer ⟨TT.Integer, (5, 6)⟩,
            Node.binary 0 ⟨TT.Plus, (3, 4)⟩ 1, Node.error, Node.block [3],
            Node.module 4],
          5⟩) ∧
    [Node.integer ⟨TT.Integer, (1, 2)⟩, Node.integer ⟨TT.Integer, (5, 6)⟩,
        Node.binary 0 ⟨TT.Plus, (3, 4)⟩ 1, Node.error, Node.block [3],
        Node.module 4].get? 3 = some Node.error := by
  constructor
  · decide
  · decide

/-- C2 counterexample: `"fn 1 => 1"` tokenizes successfully, but parse
neither returns a tree nor a report: Parser::function unwraps the missing
`(` and the program aborts (panics). -/
theorem C2_counterexample :
    tokenize "fn 1 => 1".toList =
      PRes.ok (Except.ok ⟨"fn 1 => 1".toList,
        [⟨TT.Fn, (0, 2)⟩, ⟨TT.Integer, (3, 4)⟩, ⟨TT.EqualGreater, (5, 7)⟩,
          ⟨TT.Integer, (8, 9)⟩, ⟨TT.Eof, (0, 0)⟩]⟩) ∧
    parse 30
      ⟨"fn 1 => 1".toList,
        [⟨TT.Fn, (0, 2)⟩, ⟨TT.Integer, (3, 4)⟩, ⟨TT.EqualGreater, (5, 7)⟩,
          ⟨TT.Integer, (8, 9)⟩, ⟨TT.Eof, (0, 0)⟩]⟩ = PRes.abort := by
  constructor
  · decide
  · decide

/-- C2 (amended): parse aborts (a Rust panic, returning neither tree nor
report) exactly on the claim's three example inputs — `let x` (no `=`),
`let = 1` (no name), `fn 1 => 1` (no `(`) — while a well-formed input such
as `1 + 1` still yields a complete syntax tree. -/
theorem C2_amended :
    (tokenize "let x".toList =
        PRes.ok (Except.ok ⟨"let x".toList,
          [⟨TT.Let, (0, 3)⟩, ⟨TT.Identifier, (4, 5)⟩, ⟨TT.Eof, (0, 0)⟩]⟩) ∧
      parse 30
        ⟨"let x".toList,
          [⟨TT.Let, (0, 3)⟩, ⟨TT.Identifier, (4, 5)⟩, ⟨TT.Eof, (0, 0)⟩]⟩ =
        PRes.abort) ∧
    (tokenize "let = 1".toList =
        PRes.ok (Except.ok ⟨"let = 1".toList,
          [⟨TT.Let, (0, 3)⟩, ⟨TT.Equal, (4, 5)⟩, ⟨TT.Integer, (6, 7)⟩,
            ⟨TT.Eof, (0, 0)⟩]⟩) ∧
      parse 30
        ⟨"let = 1".toList,
          [⟨TT.Let, (0, 3)⟩, ⟨TT.Equal, (4, 5)⟩, ⟨TT.Integer, (6, 7)⟩,
            ⟨TT.Eof, (0, 0)⟩]⟩ = PRes.abort) ∧
    (parse 30
        ⟨"fn 1 => 1".toList,
          [⟨TT.Fn, (0, 2)⟩, ⟨TT.Integer, (3, 4)⟩, ⟨TT.EqualGreater, (5, 7)⟩,
            ⟨TT.Integer, (8, 9)⟩, ⟨TT.Eof, (0, 0)⟩]⟩ = PRes.abort) ∧
    (parse 30
        ⟨"1 + 1".toList,
          [⟨TT.Integer, (0, 1)⟩, ⟨TT.Plus, (2, 3)⟩, ⟨TT.Integer, (4, 5)⟩,
            ⟨TT.Eof, (0, 0)⟩]⟩ =
      PRes.ok (Except.ok
        ⟨[⟨TT.Integer, (0, 1)⟩, ⟨TT.Plus, (2, 3)⟩, ⟨TT.Integer, (4, 5)⟩,
            ⟨TT.Eof, (0, 0)⟩],
          [Node.integer ⟨TT.Integer, (0, 1)⟩, Node.integer ⟨TT.Integer, (4, 5)⟩,
            Node.binary 0 ⟨TT.Plus, (2, 3)⟩ 1, Node.block [2], Node.module 3],
          4⟩)) := by
  refine ⟨⟨?_, ?_⟩, ⟨?_, ?_⟩, ?_, ?_⟩ <;> decide

/-- C3 counterexample: for `"let x"` (a `let` name with the mandatory `=`
absent) the claim says the parser records a missing-`=` diagnostic and
parse returns that failing report; in fact Parser::statement unwraps the
failed catch of `=` and the program aborts with no report at all. -/
theorem C3_counterexample :
    tokenize "let x".toList =
      PRes.ok (Except.ok ⟨"let x".toList,
        [⟨TT.Let, (0, 3)⟩, ⟨TT.Identifier, (4, 5)⟩, ⟨TT.Eof, (0, 0)⟩]⟩) ∧
    parse 30
      ⟨"let x".toList,
        [⟨TT.Let, (0, 3)⟩, ⟨TT.Identifier, (4, 5)⟩, ⟨TT.Eof, (0, 0)⟩]⟩ =
      PRes.abort := by
  constructor
  · decide
  · decide

/-- C3 (amended): when a `let`/`mut` keyword is followed by a name but the
mandatory `=` is absent (here `"mut y"`), the parser does not record any
diagnostic: it aborts via the unwrap in Parser::statement, and parse
returns neither a tree nor a report. -/
theorem C3_amended :
    tokenize "mut y".toList =
      PRes.ok (Except.ok ⟨"mut y".toList,
        [⟨TT.Mut, (0, 3)⟩, ⟨TT.Identifier, (4, 5)⟩, ⟨TT.Eof, (0, 0)⟩]⟩) ∧
    parse 30
      ⟨"mut y".toList,
        [⟨TT.Mut, (0, 3)⟩, ⟨TT.Identifier, (4, 5)⟩, ⟨TT.Eof, (0, 0)⟩]⟩ =
      PRes.abort := by
  constructor
  · decide
  · decide

/-- C10: Bindings::scope_begin pushes a full copy of the innermost
name-to-type mapping, and Bindings::scope_end — after any mutation of the
innermost mapping (any replacement m2 of the pushed copy) — restores the
stack of mappings exactly as it was before scope_begin, so bindings added
inside the nested scope are discarded and outer bindings are unaffected. -/
theorem C10_spec (b b2 : Bindings) (h : b.scope_begin = some b2) :
    (∃ m, b.map.getLast? = some m ∧ b2.map = b.map ++ [m]) ∧
    ∀ m2, (Bindings.scope_end { b2 with map := b2.map.dropLast ++ [m2] }).map = b.map := by
  unfold Bindings.scope_begin at h
  cases hL : b.map.getLast? with
  | none => rw [hL] at h; cases h
  | some m =>
    rw [hL] at h
    injection h with h2
    subst h2
    refine ⟨⟨m, rfl, rfl⟩, fun m2 => ?_⟩
    simp [Bindings.scope_end, List.dropLast_concat]

/-- C10 witness: a concrete scope stack holding one binding of x; opening a
scope, overwriting the inner copy with a binding of y, and closing the
scope restores exactly the original stack. -/
theorem C10_witness :
    (Bindings.scope_end
      { Bindings.mk [] 0 [[("x", some 0)], [("x", some 0)]] with
          map :=
            (Bindings.mk [] 0 [[("x", some 0)], [("x", some 0)]]).map.dropLast ++
              [[("y", some 1)]] }).map =
      (Bindings.mk [] 0 [[("x", some 0)]]).map :=
  (C10_spec (Bindings.mk [] 0 [[("x", some 0)]])
    (Bindings.mk [] 0 [[("x", some 0)], [("x", some 0)]]) (by decide)).2
    [("y", some 1)]


end Myano
